import Mathlib

/-!
Verification of the go-ssz SSZ codec (github.com/524119574/go-ssz).

This file gives a shallow embedding of the reflective SSZ encoder/decoder:

* `ssz.go` — public `Marshal` / `Unmarshal` wrappers;
* `types/slice_basic.go` — `basicSliceSSZ.Marshal` / `Unmarshal`;
* `types/array_basic.go` — `basicArraySSZ.Marshal` / `Unmarshal`;
* `types/slice_composite.go` — `compositeSliceSSZ.Marshal` / `Unmarshal`;
* `types/array_composite.go` — `compositeArraySSZ` and `structSSZ`
  (`Marshal` / `Unmarshal`), `determineFieldCapacity`;
* `types/string.go` — `stringSSZ.Marshal` / `Unmarshal`;
* `decode.go` — the older decoder, in particular the offset read of
  `makeStructDecoder`.

Go values are reflected into a schema type (`Schema`) and a value type
(`Value`); byte buffers are `List Nat` with each byte below 256.  Go slice
expressions `input[a:b]` panic when `a ≤ b ≤ len(input)` fails; every such
panic (and every index panic, division by zero, etc.) is modelled as
`Option.none`.  Machine arithmetic on `uint64` cursors never overflows for
the inputs considered, so cursors are plain `Nat`; the `uint32` conversions
of offset writes are modelled with explicit `% 2 ^ 32`.

The repository's schema helpers (`types.SSZFactory`, `types.DetermineSize`,
`isVariableSizeType`, `determineFixedSize`, `growConcreteSliceType`,
`instantiateConcreteTypeForElement`) are not among the provided sources;
the definitions below that stand in for them are modelled from the
specification and marked as such in their doc comments.
-/

/-! ## Little-endian byte utilities (`encoding/binary` LittleEndian) -/

/-- Little-endian encoding of `n` into `w` bytes, as done by
`binary.LittleEndian.PutUint32` / `PutUint64` after Go's integer-width
conversion (which is modelled by the `% 256` per byte; the caller applies
the explicit `uint32` truncation where Go does). -/
def putLE : Nat → Nat → List Nat
  | 0, _ => []
  | w + 1, n => (n % 256) :: putLE w (n / 256)

/-- Little-endian decoding of a byte list, as done by
`binary.LittleEndian.Uint32` / `Uint64` on a buffer of the right length. -/
def fromLE : List Nat → Nat
  | [] => 0
  | b :: bs => b % 256 + 256 * fromLE bs

/-- Go slice expression `l[a:b]` (the bytes with indices `a ≤ i < b`).
Callers are responsible for the `a ≤ b ≤ len l` panic condition. -/
def sliceGo (l : List Nat) (a b : Nat) : List Nat := (l.take b).drop a

/-- Read `w` bytes little-endian starting at `start`; `none` models the Go
panic of slicing `input[start : start+w]` past the end of the buffer. -/
def readLE (input : List Nat) (start w : Nat) : Option Nat :=
  if start + w ≤ input.length then some (fromLE (sliceGo input start (start + w))) else none

/-- `BytesPerLengthOffset` from the source: offsets take 4 bytes. -/
def BytesPerLengthOffset : Nat := 4

/-! ## Schemas and values

`Schema` is the closed kind set of the specification (§3): booleans,
unsigned integers of a byte width, byte lists (`[]byte`), vectors
(Go arrays), lists (Go slices) and containers (Go structs).  Go pointer
types are transparent to the wire format: the codec dereferences them and
treats a nil pointer as the zero value, so pointers appear below only as
the possible `Value.null` of a composite slot. -/

inductive Schema where
  | bool : Schema
  | uint (w : Nat) : Schema
  | byteList : Schema
  | vector (n : Nat) (elem : Schema) : Schema
  | list (elem : Schema) : Schema
  | container (fields : List Schema) : Schema

inductive Value where
  | bool (b : Bool) : Value
  | uint (v : Nat) : Value
  | bytes (bs : List Nat) : Value
  | vector (elems : List Value) : Value
  | list (elems : List Value) : Value
  | container (fields : List Value) : Value
  | null : Value

/-! ## Schema introspection -/

mutual
/-- Modelled from the spec (§4.2, §3): `isVariableSizeType` of the missing
`types` helpers.  Byte lists and lists are variable; a vector is variable
iff its element is; a container is variable iff some field is. -/
def isVariableSizeType : Schema → Bool
  | .bool => false
  | .uint _ => false
  | .byteList => true
  | .vector _ e => isVariableSizeType e
  | .list _ => true
  | .container fs => anyVariable fs

/-- Helper of `isVariableSizeType` over the field list of a container. -/
def anyVariable : List Schema → Bool
  | [] => false
  | f :: fs => isVariableSizeType f || anyVariable fs
end

mutual
/-- Modelled from the spec (§4.2): `fixed_size(schema)`, meaningful for
fixed-size schemas (`determineFixedSize` of the missing helpers): sum over
container fields, product for vectors. -/
def fixedSize : Schema → Nat
  | .bool => 1
  | .uint w => w
  | .byteList => 0
  | .vector n e => n * fixedSize e
  | .list _ => 0
  | .container fs => fixedSizeSum fs

/-- Sum of `fixedSize` over a container's fields. -/
def fixedSizeSum : List Schema → Nat
  | [] => 0
  | f :: fs => fixedSize f + fixedSizeSum fs
end

mutual
/-- Structural depth of a schema; used as the recursion bound of the
decoder embedding (the Go decoder recurses on the finite reflect type). -/
def schemaDepth : Schema → Nat
  | .bool => 1
  | .uint _ => 1
  | .byteList => 1
  | .vector _ e => schemaDepth e + 1
  | .list e => schemaDepth e + 1
  | .container fs => depthMax fs + 1

/-- Maximal `schemaDepth` over a field list. -/
def depthMax : List Schema → Nat
  | [] => 0
  | f :: fs => max (schemaDepth f) (depthMax fs)
end

mutual
/-- Zero value of a schema, as produced by `reflect.New` /
`reflect.MakeSlice`: false, 0, nil (empty) slices, zero-filled arrays and
zero-filled structs. -/
def zeroValue : Schema → Value
  | .bool => .bool false
  | .uint _ => .uint 0
  | .byteList => .bytes []
  | .vector n e => .vector (List.replicate n (zeroValue e))
  | .list _ => .list []
  | .container fs => .container (zeroFields fs)

/-- Zero values of a container's fields. -/
def zeroFields : List Schema → List Value
  | [] => []
  | f :: fs => zeroValue f :: zeroFields fs
end

mutual
/-- Modelled from the spec (§3 lifecycle): serialized size of the zero
value of a schema; `types.DetermineSize` applied to a nil pointer uses the
zero value of the pointee (matching `TestNilElementDetermineSize`). -/
def zeroSize : Schema → Nat
  | .bool => 1
  | .uint w => w
  | .byteList => 0
  | .vector n e => if isVariableSizeType e then n * (4 + zeroSize e) else n * zeroSize e
  | .list _ => 0
  | .container fs => zeroSizeFields fs

/-- Helper of `zeroSize` over a container's fields. -/
def zeroSizeFields : List Schema → Nat
  | [] => 0
  | f :: fs => (if isVariableSizeType f then 4 + zeroSize f else zeroSize f) + zeroSizeFields fs
end

mutual
/-- Modelled from the spec (§3, §8): `types.DetermineSize`, the serialized
size of a value under its schema.  A null (nil-pointer) slot counts as its
zero value. -/
def determineSize : Schema → Value → Nat
  | s, .null => zeroSize s
  | .bool, _ => 1
  | .uint w, _ => w
  | .byteList, .bytes bs => bs.length
  | .vector _ e, .vector vs =>
      if isVariableSizeType e then 4 * vs.length + sizeSum e vs else sizeSum e vs
  | .list e, .list vs =>
      if isVariableSizeType e then 4 * vs.length + sizeSum e vs else sizeSum e vs
  | .container fs, .container vs => sizeFieldsSum fs vs
  | _, _ => 0

/-- Sum of element sizes of a homogeneous collection. -/
def sizeSum : Schema → List Value → Nat
  | _, [] => 0
  | e, v :: vs => determineSize e v + sizeSum e vs

/-- Container size: fixed fields contribute `fixedSize`, variable fields a
4-byte offset plus their own serialized size (spec §4.4 step 1). -/
def sizeFieldsSum : List Schema → List Value → Nat
  | [], _ => 0
  | _ :: _, [] => 0
  | f :: fs, v :: vs =>
      (if isVariableSizeType f then 4 + determineSize f v else fixedSize f) + sizeFieldsSum fs vs
end

/-! ## Well-typed values and schema side conditions -/

mutual
/-- Well-typedness of a value against a schema: widths are the supported
1/2/4/8 bytes, integers fit their width, bytes are bytes, vector arities
match, containers match field-wise.  A null is allowed in a composite slot
(a nil pointer to a struct). -/
def WT : Schema → Value → Bool
  | .bool, .bool _ => true
  | .uint w, .uint v =>
      (decide (w = 1) || decide (w = 2) || decide (w = 4) || decide (w = 8))
        && decide (v < 2 ^ (8 * w))
  | .byteList, .bytes bs => bs.all (fun b => decide (b < 256))
  | .vector n e, .vector vs => decide (vs.length = n) && WTElems e vs
  | .list e, .list vs => WTElems e vs
  | .container fs, .container vs => WTFields fs vs
  | .container _, .null => true
  | _, _ => false

/-- Pointwise well-typedness of collection elements. -/
def WTElems : Schema → List Value → Bool
  | _, [] => true
  | e, v :: vs => WT e v && WTElems e vs

/-- Pointwise well-typedness of container fields. -/
def WTFields : List Schema → List Value → Bool
  | [], [] => true
  | f :: fs, v :: vs => WT f v && WTFields fs vs
  | _, _ => false
end

mutual
/-- A value contains no null (nil-pointer) slot. -/
def NoNull : Value → Bool
  | .null => false
  | .vector vs => NoNullList vs
  | .list vs => NoNullList vs
  | .container vs => NoNullList vs
  | _ => true

/-- Pointwise `NoNull`. -/
def NoNullList : List Value → Bool
  | [] => true
  | v :: vs => NoNull v && NoNullList vs
end

mutual
/-- Schema side conditions under which the decoder can reconstruct values:
a list of fixed-size elements needs a positive element size (the decoder
divides by it), and a vector of variable-size elements must be non-empty
(its decoder unconditionally reads a first offset and indexes element 0). -/
def Good : Schema → Bool
  | .bool => true
  | .uint _ => true
  | .byteList => true
  | .vector n e => (!isVariableSizeType e || decide (1 ≤ n)) && Good e
  | .list e => (isVariableSizeType e || decide (0 < fixedSize e)) && Good e
  | .container fs => GoodFields fs

/-- Pointwise `Good` over container fields. -/
def GoodFields : List Schema → Bool
  | [] => true
  | f :: fs => Good f && GoodFields fs
end

mutual
/-- Replace every null slot by the zero value of its schema.  This models
the nil-pointer branch of `structSSZ.Marshal` (types/array_composite.go,
lines 121–126): a nil pointer is marshaled as a freshly zero-constructed
value.  Applying the substitution once up front is equivalent to Go's
per-node check because the encoder visits every slot exactly once. -/
def denull : Schema → Value → Value
  | s, .null => zeroValue s
  | .vector _ e, .vector vs => .vector (denullElems e vs)
  | .list e, .list vs => .list (denullElems e vs)
  | .container fs, .container vs => .container (denullFields fs vs)
  | _, v => v

/-- Pointwise `denull` over collection elements. -/
def denullElems : Schema → List Value → List Value
  | _, [] => []
  | e, v :: vs => denull e v :: denullElems e vs

/-- Pointwise `denull` over container fields. -/
def denullFields : List Schema → List Value → List Value
  | f :: fs, v :: vs => denull f v :: denullFields fs vs
  | _, vs => vs
end

/-! ## Encoder

The Go `Marshal` methods write into a pre-sized buffer `buf` starting at
`startOffset` and return the index one past the last byte written; every
codec writes contiguously.  The embedding therefore represents a call
`Marshal(val, typ, buf, startOffset)` by the list of bytes it writes; the
returned index is `startOffset` plus that list's length, and an offset
value `currentOffsetIndex - startOffset` appears as the running parameter
threaded through the loop. -/

/-- Offset table written by the variable-element loops of
`compositeSliceSSZ.Marshal` / `compositeArraySSZ.Marshal`: before element
`i` is written, `uint32(currentOffsetIndex - startOffset)` is stored in
prefix slot `i`; the running offset starts at `4 * len` and advances past
each element's encoding. -/
def offsetTable : Nat → List (List Nat) → List Nat
  | _, [] => []
  | off, e :: es => putLE 4 (off % 2 ^ 32) ++ offsetTable (off + e.length) es

/-- Fixed-part length of a struct, `fixedLength` of `structSSZ.Marshal`:
each variable field contributes `BytesPerLengthOffset = 4`, each fixed
field its `determineFixedSize`. -/
def structFixedLen : List Schema → Nat
  | [] => 0
  | f :: fs => (if isVariableSizeType f then 4 else fixedSize f) + structFixedLen fs

mutual
/-- Bytes written by the reflective `Marshal` of the types package for a
null-free value.  Cases follow the source codecs:

* booleans and unsigned integers: the primitive encoders (spec §4.1,
  the basic codec of the types package);
* `byteList`: raw bytes;
* fixed-element vectors/lists: sequential concatenation
  (`basicArraySSZ.Marshal`, `basicSliceSSZ.Marshal`);
* variable-element vectors/lists: offset table then elements
  (`compositeArraySSZ.Marshal`, `compositeSliceSSZ.Marshal`);
* containers: two-cursor layout of `structSSZ.Marshal` via `structParts`.

Null slots must be removed by `denull` first (see `sszMarshal`). -/
def encV : Schema → Value → List Nat
  | .bool, .bool b => [if b then 1 else 0]
  | .uint w, .uint v => putLE w v
  | .byteList, .bytes bs => bs
  | .vector _ e, .vector vs =>
      if isVariableSizeType e then
        offsetTable (4 * vs.length) (encElems e vs) ++ (encElems e vs).flatten
      else (encElems e vs).flatten
  | .list e, .list vs =>
      if isVariableSizeType e then
        offsetTable (4 * vs.length) (encElems e vs) ++ (encElems e vs).flatten
      else (encElems e vs).flatten
  | .container fs, .container vs =>
      (structParts fs vs (structFixedLen fs)).1 ++ (structParts fs vs (structFixedLen fs)).2
  | _, _ => []

/-- Encodings of the elements of a homogeneous collection, in order. -/
def encElems : Schema → List Value → List (List Nat)
  | _, [] => []
  | e, v :: vs => encV e v :: encElems e vs

/-- Two-cursor struct layout of `structSSZ.Marshal`: the first component is
the fixed part (fixed fields inline, a 4-byte offset per variable field),
the second is the variable section.  `varOff` is
`currentOffsetIndex - startOffset`, initially `structFixedLen`. -/
def structParts : List Schema → List Value → Nat → List Nat × List Nat
  | _, [], _ => ([], [])
  | [], _, _ => ([], [])
  | f :: fs, v :: vs, varOff =>
      if isVariableSizeType f then
        (putLE 4 (varOff % 2 ^ 32) ++ (structParts fs vs (varOff + (encV f v).length)).1,
          encV f v ++ (structParts fs vs (varOff + (encV f v).length)).2)
      else
        (encV f v ++ (structParts fs vs varOff).1, (structParts fs vs varOff).2)
end

/-- Serialization of a value: nulls are zero-substituted (the nil-pointer
branch of `structSSZ.Marshal`), then `encV` collects the written bytes. -/
def sszMarshal (s : Schema) (v : Value) : List Nat := encV s (denull s v)

/-! ## Decoder -/

/-- Sequential element decoding used by `basicArraySSZ.Unmarshal` and the
tail loop of `basicSliceSSZ.Unmarshal`: `count` elements are decoded from
`input` at a running index. -/
def decodeSeq (dec : List Nat → Nat → Option (Value × Nat)) :
    Nat → List Nat → Nat → Option (List Value × Nat)
  | 0, _, idx => some ([], idx)
  | k + 1, input, idx =>
    match dec input idx with
    | none => none
    | some (v, idx2) =>
      match decodeSeq dec k input idx2 with
      | none => none
      | some (vs, idx3) => some (v :: vs, idx3)

/-- `basicSliceSSZ.Unmarshal` (types/slice_basic.go, path without ssz-size
tags): empty input yields the empty slice and returned index 0; otherwise
element 0 is decoded, its consumed length is taken as the element size, the
element count is `len(input) / elementSize` (integer division, with no
remainder check), and the remaining elements are decoded sequentially.
`none` at `elementSize = 0` models Go's division-by-zero panic. -/
def basicSliceUnmarshal (dec : List Nat → Nat → Option (Value × Nat))
    (input : List Nat) (start : Nat) : Option (List Value × Nat) :=
  if input.length = 0 then some ([], 0)
  else
    match dec input start with
    | none => none
    | some (v0, idx) =>
      let elementSize := idx - start
      if elementSize = 0 then none
      else
        match decodeSeq dec (input.length / elementSize - 1) input idx with
        | none => none
        | some (vs, idxF) => some (v0 :: vs, idxF)

/-- Element loop of `compositeSliceSSZ.Unmarshal` (src/unnamed/part_001,
lines 73–96).  `fuel` bounds the iteration count (the loop advances
`currentIndex` by 4 towards `firstOffset` each round; call sites pass more
fuel than any run can use).  When `nextOffset < currentOffset` the source
silently breaks out of the loop and reports success — the non-monotonic
offset defect noted in spec §9 — modelled by returning the elements
decoded so far.  `none` models the panics of the offset read
`input[nextIndex : nextIndex+4]` and of the element slice
`input[currentOffset:nextOffset]`. -/
def compSliceLoop (dec : List Nat → Nat → Option (Value × Nat))
    (input : List Nat) (start firstOffset : Nat) :
    Nat → Nat → Nat → Option (List Value × Nat)
  | 0, currentIndex, _ =>
    if currentIndex < firstOffset then none else some ([], currentIndex)
  | fuel + 1, currentIndex, currentOffset =>
    if currentIndex < firstOffset then
      match (if currentIndex + 4 = firstOffset then some input.length
             else (readLE input (currentIndex + 4) 4).map (fun x => start + x)) with
      | none => none
      | some nextOffset =>
        if nextOffset < currentOffset then some ([], currentIndex)
        else if nextOffset ≤ input.length then
          match dec (sliceGo input currentOffset nextOffset) 0 with
          | none => none
          | some (v, _) =>
            match compSliceLoop dec input start firstOffset fuel (currentIndex + 4) nextOffset with
            | none => none
            | some (vs, idxF) => some (v :: vs, idxF)
        else none
    else some ([], currentIndex)

/-- `compositeSliceSSZ.Unmarshal` (src/unnamed/part_001): empty input
yields the empty slice with returned index 0; otherwise the first offset is
read at `[start, start+4)` and the element loop runs.  The initial
`growConcreteSliceType(val, typ, 1)` leaves a single zero element in the
destination when the loop decodes nothing. -/
def compositeSliceUnmarshal (dec : List Nat → Nat → Option (Value × Nat))
    (zeroElem : Value) (input : List Nat) (start : Nat) : Option (List Value × Nat) :=
  if input.length = 0 then some ([], 0)
  else
    match readLE input start 4 with
    | none => none
    | some off0 =>
      match compSliceLoop dec input start (start + off0) (input.length + 8) start (start + off0) with
      | none => none
      | some ([], idx) => some ([zeroElem], idx)
      | some (vs, idx) => some (vs, idx)

/-- Element loop of `compositeArraySSZ.Unmarshal` (types/array_composite.go,
lines 74–91).  Unlike the slice loop there is no monotonicity check at all:
a decreasing offset pair reaches the element slice, whose Go panic is
`none` here.  `val.Index(i)` on the destination array panics for `i ≥ n`. -/
def compArrayLoop (dec : List Nat → Nat → Option (Value × Nat))
    (input : List Nat) (start firstOffset n : Nat) :
    Nat → Nat → Nat → Nat → Option (List Value × Nat)
  | 0, _, currentIndex, _ =>
    if currentIndex < firstOffset then none else some ([], currentIndex)
  | fuel + 1, i, currentIndex, currentOffset =>
    if currentIndex < firstOffset then
      match (if currentIndex + 4 = firstOffset then some input.length
             else (readLE input (currentIndex + 4) 4).map (fun x => start + x)) with
      | none => none
      | some nextOffset =>
        if i < n then
          if currentOffset ≤ nextOffset ∧ nextOffset ≤ input.length then
            match dec (sliceGo input currentOffset nextOffset) 0 with
            | none => none
            | some (v, _) =>
              match compArrayLoop dec input start firstOffset n fuel (i + 1) (currentIndex + 4) nextOffset with
              | none => none
              | some (vs, idxF) => some (v :: vs, idxF)
          else none
        else none
    else some ([], currentIndex)

/-- `compositeArraySSZ.Unmarshal` (types/array_composite.go, lines 57–93):
the first offset is read unconditionally (no empty-input branch) and the
element loop fills array slots `0, 1, …`; slots the loop does not reach
keep their zero value.  The factory fetch `SSZFactory(val.Index(0), …)`
panics on a zero-length array, hence `none` for `n = 0`. -/
def compositeArrayUnmarshal (dec : List Nat → Nat → Option (Value × Nat))
    (zeroElem : Value) (n : Nat) (input : List Nat) (start : Nat) : Option (List Value × Nat) :=
  if n = 0 then none
  else
    match readLE input start 4 with
    | none => none
    | some off0 =>
      match compArrayLoop dec input start (start + off0) n (input.length + 8) 0 start (start + off0) with
      | none => none
      | some (vs, idx) => some (vs ++ List.replicate (n - vs.length) zeroElem, idx)

/-- Fixed sizes pass of `structSSZ.Unmarshal` (types/array_composite.go,
lines 203–231): variable fields get no entry (`none`), fixed fields their
`determineFixedSize`. -/
def fieldFixedSizes (fs : List Schema) : List (Option Nat) :=
  fs.map (fun f => if isVariableSizeType f then none else some (fixedSize f))

/-- Offsets pass of `structSSZ.Unmarshal` (lines 233–247): a counter walks
the fixed part; each variable field's offset is read as a 4-byte
little-endian `uint32` and rebased by `startOffset`, except that a read
past the end of the input is silently skipped (the counter still
advances). -/
def collectOffsets (input : List Nat) (start : Nat) :
    List (Option Nat) → Nat → List Nat
  | [], _ => []
  | some sz :: rest, counter => collectOffsets input start rest (counter + sz)
  | none :: rest, counter =>
      if counter + 4 > input.length then collectOffsets input start rest (counter + 4)
      else (start + fromLE (sliceGo input counter (counter + 4))) ::
        collectOffsets input start rest (counter + 4)

/-- Tag-parse of `determineFieldCapacity` (types/array_composite.go, lines
303–313): the `ssz-max` tag is absent (`none`), present but unparseable
(`some none`), or a parsed limit.  Absent and unparseable both yield 0. -/
def determineFieldCapacity : Option (Option Nat) → Nat
  | none => 0
  | some none => 0
  | some (some v) => v

mutual
/-- Reflective decoder: the dispatch mirrors the factory of the types
package (modelled from spec §4.3: fixed-element collections decode
sequentially, variable-element collections through their offset table) and
each branch is the corresponding `Unmarshal` of the source.  Booleans
reject bytes other than 0/1 (`decodeBool` of decode.go; spec
`InvalidBool`); integers read their width little-endian; a byte list takes
the whole remaining input (`makeByteSliceDecoder`). -/
def decodeV : Schema → List Nat → Nat → Option (Value × Nat)
  | .bool, input, start =>
      match input.get? start with
      | none => none
      | some b =>
        if b = 0 then some (.bool false, start + 1)
        else if b = 1 then some (.bool true, start + 1)
        else none
  | .uint w, input, start =>
      match readLE input start w with
      | none => none
      | some v => some (.uint v, start + w)
  | .byteList, input, start =>
      if start + input.length ≤ input.length then
        some (.bytes (input.drop start), start + input.length)
      else none
  | .vector n e, input, start =>
      if isVariableSizeType e then
        match compositeArrayUnmarshal (decodeV e) (zeroValue e) n input start with
        | none => none
        | some (vs, idx) => some (.vector vs, idx)
      else
        match decodeSeq (decodeV e) n input start with
        | none => none
        | some (vs, idx) => some (.vector vs, idx)
  | .list e, input, start =>
      if isVariableSizeType e then
        match compositeSliceUnmarshal (decodeV e) (zeroValue e) input start with
        | none => none
        | some (vs, idx) => some (.list vs, idx)
      else
        match basicSliceUnmarshal (decodeV e) input start with
        | none => none
        | some (vs, idx) => some (.list vs, idx)
  | .container fs, input, start =>
      match structFieldsLoop fs input
          (collectOffsets input start (fieldFixedSizes fs) start ++ [input.length]) 0 start with
      | none => none
      | some (vs, idx) => some (.container vs, idx)

/-- Field loop of `structSSZ.Unmarshal` (lines 249–288).  Fixed fields of
size 0 are skipped (`continue`), leaving the destination's zero value; a
fixed field of positive size decodes from `input[currentIndex:nextIndex]`;
a variable field whose first offset equals `len(input)` is skipped without
advancing `offsetIndex`; otherwise it decodes from
`input[firstOff:nextOff]`, with the explicit out-of-range error of the
source for `nextOff > len(input)` and the Go slice panic for
`firstOff > nextOff` both `none`.  The per-field sizes are exactly the
`fieldFixedSizes` entries, re-derived here from the schema. -/
def structFieldsLoop : List Schema → List Nat → List Nat → Nat → Nat → Option (List Value × Nat)
  | [], _, _, _, ci => some ([], ci)
  | f :: fs, input, offsets, oi, ci =>
    if isVariableSizeType f then
      match offsets.get? oi with
      | none => none
      | some firstOff =>
        if firstOff = input.length then
          match structFieldsLoop fs input offsets oi (ci + 4) with
          | none => none
          | some (vs, c) => some (zeroValue f :: vs, c)
        else
          match offsets.get? (oi + 1) with
          | none => none
          | some nextOff =>
            if input.length < nextOff then none
            else if firstOff ≤ nextOff then
              match decodeV f (sliceGo input firstOff nextOff) 0 with
              | none => none
              | some (v, _) =>
                match structFieldsLoop fs input offsets (oi + 1) (ci + 4) with
                | none => none
                | some (vs, c) => some (v :: vs, c)
            else none
    else
      if fixedSize f = 0 then
        match structFieldsLoop fs input offsets oi ci with
        | none => none
        | some (vs, c) => some (zeroValue f :: vs, c)
      else
        if ci + fixedSize f ≤ input.length then
          match decodeV f (sliceGo input ci (ci + fixedSize f)) 0 with
          | none => none
          | some (v, _) =>
            match structFieldsLoop fs input offsets oi (ci + fixedSize f) with
            | none => none
            | some (vs, c) => some (v :: vs, c)
        else none
end

/-! ## Public wrappers (`ssz.go`) -/

/-- Error outcomes of the public wrappers; panics inside the codec surface
as `decodeFailure` / `marshalFailure` for the purposes of this model (in
either case the call does not succeed). -/
inductive SSZErr where
  | nilValue : SSZErr
  | emptyInput : SSZErr
  | lengthMismatch : SSZErr
  | decodeFailure : SSZErr
  | marshalFailure : SSZErr

/-- A top-level argument of `Marshal`: Go's untyped nil, a pointer (whose
handle may be a typed nil), or a non-pointer value. -/
inductive TopVal where
  | untypedNil : TopVal
  | ptr (v : Option Value) : TopVal
  | plain (v : Value) : TopVal

/-- Modelled from the spec: `types.DetermineSize` on the top-level reflect
value; a nil pointer is sized as the zero value of the pointee. -/
def topDetermineSize (s : Schema) : TopVal → Nat
  | .untypedNil => 0
  | .ptr none => zeroSize s
  | .ptr (some v) => determineSize s v
  | .plain v => determineSize s v

/-- Write `bytes` into `buf` at `start`; `none` models the Go panic of
writing past the end of the pre-sized buffer. -/
def writeBuf (buf : List Nat) (start : Nat) (bytes : List Nat) : Option (List Nat) :=
  if start + bytes.length ≤ buf.length then
    some (buf.take start ++ bytes ++ buf.drop (start + bytes.length))
  else none

/-- `Marshal` of ssz.go (lines 46–76): reject untyped nil; allocate a
zero-filled buffer of `types.DetermineSize`; for a nil pointer return the
buffer untouched; otherwise run the reflective codec at offset 0.  The
`fssz.Marshaler` fast path concerns foreign types and is outside the
schema. -/
def sszMarshalTop (s : Schema) (tv : TopVal) : Except SSZErr (List Nat) :=
  match tv with
  | .untypedNil => .error .nilValue
  | .ptr none => .ok (List.replicate (topDetermineSize s (.ptr none)) 0)
  | .ptr (some v) =>
      match writeBuf (List.replicate (topDetermineSize s (.ptr (some v))) 0) 0 (sszMarshal s v) with
      | some out => .ok out
      | none => .error .marshalFailure
  | .plain v =>
      match writeBuf (List.replicate (topDetermineSize s (.plain v)) 0) 0 (sszMarshal s v) with
      | some out => .ok out
      | none => .error .marshalFailure

/-- `Unmarshal` of ssz.go (lines 90–127): reject empty input, run the
reflective codec at offset 0 into a zero destination, then require
`types.DetermineSize` of the decoded result to equal `len(input)` ("
unexpected amount of data" otherwise).  The nil/non-pointer destination
rejections concern the Go calling convention and are before this point. -/
def sszUnmarshalTop (s : Schema) (input : List Nat) : Except SSZErr Value :=
  if input.length = 0 then .error .emptyInput
  else
    match decodeV s input 0 with
    | none => .error .decodeFailure
    | some (d, _) =>
      if input.length = determineSize s d then .ok d else .error .lengthMismatch

/-! ## String codec (types/string.go) -/

/-- `stringSSZ.Marshal`: `buf[int(startOffset)+i] = uint8(val.Index(i).Uint())`
for each character, returning `startOffset + len(s)`.  The `uint8`
conversion is the `% 256`; writing past the buffer is the usual panic. -/
def stringMarshal (s : List Nat) (buf : List Nat) (startOffset : Nat) :
    Option (List Nat × Nat) :=
  if startOffset + s.length ≤ buf.length then
    some (buf.take startOffset ++ s.map (fun c => c % 256) ++ buf.drop (startOffset + s.length),
      startOffset + s.length)
  else none

/-- `stringSSZ.Unmarshal`: `val.SetString(string(input[startOffset:offset]))`
with `offset = startOffset + len(input)`; the slice panics unless
`startOffset = 0` (or the input is empty). -/
def stringUnmarshal (input : List Nat) (startOffset : Nat) : Option (List Nat × Nat) :=
  if startOffset + input.length ≤ input.length then
    some (input.drop startOffset, startOffset + input.length)
  else none

/-! ## Older decoder fragments (decode.go) -/

/-- `binary.LittleEndian.Uint64`: an 8-byte read whose bounds check
`_ = b[7]` panics on a shorter buffer. -/
def goUint64LE (b : List Nat) : Option Nat :=
  if 8 ≤ b.length then some (fromLE (b.take 8)) else none

/-- Offsets pass of `makeStructDecoder` (decode.go, lines 306–316): for
each variable field the source slices the 4-byte window
`input[i : i+BytesPerLengthOffset]` — indexed by the field number `i` —
and then applies `binary.LittleEndian.Uint64` to it, an 8-byte read on a
4-byte buffer. -/
def oldStructCollectOffsets (input : List Nat) (startOffset : Nat) :
    List Nat → Nat → Option (List Nat)
  | [], _ => some []
  | item :: rest, i =>
    if 0 < item then oldStructCollectOffsets input startOffset rest (i + 1)
    else
      if i + BytesPerLengthOffset ≤ input.length then
        match goUint64LE (sliceGo input i (i + BytesPerLengthOffset)) with
        | none => none
        | some off =>
          match oldStructCollectOffsets input startOffset rest (i + 1) with
          | none => none
          | some offs => some ((startOffset + off) :: offs)
      else none

/-- Absolute data offsets of the variable fields of a struct, as written by
`structSSZ.Marshal` (before `uint32` truncation). -/
def varOffsetsF : List Schema → List Value → Nat → List Nat
  | f :: fs, v :: vs, off =>
      if isVariableSizeType f then off :: varOffsetsF fs vs (off + (encV f v).length)
      else varOffsetsF fs vs off
  | _, _, _ => []

/-- The variable section of a struct: concatenated encodings of its
variable fields. -/
def varSec : List Schema → List Value → List Nat
  | f :: fs, v :: vs => (if isVariableSizeType f then encV f v else []) ++ varSec fs vs
  | _, _ => []

/-! ## Byte-level lemmas -/

@[simp] theorem putLE_length (w n : Nat) : (putLE w n).length = w := by
  induction w generalizing n with
  | zero => rfl
  | succ w ih => simp [putLE, ih]

theorem fromLE_putLE (w n : Nat) : fromLE (putLE w n) = n % 256 ^ w := by
  induction w generalizing n with
  | zero => simp [putLE, fromLE, Nat.mod_one]
  | succ w ih =>
      simp only [putLE, fromLE, ih, Nat.mod_mod_of_dvd _ dvd_rfl]
      rw [pow_succ, mul_comm (256 ^ w) 256, Nat.mod_mul]

theorem fromLE_putLE_of_lt {w n : Nat} (h : n < 256 ^ w) : fromLE (putLE w n) = n := by
  rw [fromLE_putLE, Nat.mod_eq_of_lt h]

theorem sliceGo_of_append (a b c : List Nat) :
    sliceGo (a ++ b ++ c) a.length (a.length + b.length) = b := by
  unfold sliceGo
  rw [List.append_assoc, List.take_append_eq_append_take]
  simp [List.take_of_length_le, List.take_append_eq_append_take, List.drop_append_eq_append_drop]

theorem sliceGo_length (l : List Nat) (a b : Nat) (h : b ≤ l.length) :
    (sliceGo l a b).length = b - a := by
  simp [sliceGo, Nat.min_eq_left h]

theorem readLE_of_append (a b c : List Nat) (w : Nat) (hw : b.length = w) :
    readLE (a ++ b ++ c) a.length w = some (fromLE b) := by
  subst hw
  rw [readLE, if_pos (by simp), sliceGo_of_append]

theorem get?_append_cons (a : List Nat) (b : Nat) (c : List Nat) :
    (a ++ b :: c).get? a.length = some b := by
  rw [List.get?_append_right (Nat.le_refl _)]
  simp

/-! ## Structural lemmas about the encoder -/

theorem encElems_length (e : Schema) (vs : List Value) :
    (encElems e vs).length = vs.length := by
  induction vs with
  | nil => rfl
  | cons v vs ih => simp [encElems, ih]

theorem encElems_append (e : Schema) (vs1 vs2 : List Value) :
    encElems e (vs1 ++ vs2) = encElems e vs1 ++ encElems e vs2 := by
  induction vs1 with
  | nil => rfl
  | cons v vs ih => simp [encElems, ih]

theorem offsetTable_length (off : Nat) (es : List (List Nat)) :
    (offsetTable off es).length = 4 * es.length := by
  induction es generalizing off with
  | nil => rfl
  | cons e es ih => simp [offsetTable, ih]; ring

theorem depth_le_of_mem {f : Schema} {fs : List Schema} (h : f ∈ fs) :
    schemaDepth f ≤ depthMax fs := by
  induction fs with
  | nil => cases h
  | cons g gs ih =>
      rcases List.mem_cons.mp h with h1 | h1
      · subst h1; simp [depthMax]
      · exact le_trans (ih h1) (by simp [depthMax])

theorem WTElems_mem {e : Schema} {vs : List Value} {v : Value}
    (h : WTElems e vs = true) (hm : v ∈ vs) : WT e v = true := by
  induction vs with
  | nil => cases hm
  | cons w ws ih =>
      simp only [WTElems, Bool.and_eq_true] at h
      rcases List.mem_cons.mp hm with h1 | h1
      · subst h1; exact h.1
      · exact ih h.2 h1

theorem NoNullList_mem {vs : List Value} {v : Value}
    (h : NoNullList vs = true) (hm : v ∈ vs) : NoNull v = true := by
  induction vs with
  | nil => cases hm
  | cons w ws ih =>
      simp only [NoNullList, Bool.and_eq_true] at h
      rcases List.mem_cons.mp hm with h1 | h1
      · subst h1; exact h.1
      · exact ih h.2 h1

theorem flatten_len_of_const {e : Schema} {vs : List Value} {m : Nat}
    (h : ∀ v ∈ vs, (encV e v).length = m) :
    (encElems e vs).flatten.length = vs.length * m := by
  induction vs with
  | nil => simp [encElems]
  | cons v vs ih =>
      simp only [encElems, List.flatten_cons, List.length_append, List.length_cons,
        h v (List.mem_cons_self _ _), ih (fun w hw => h w (List.mem_cons_of_mem _ hw))]
      ring

theorem structParts_snd_of_allFixed (fs : List Schema) (vs : List Value) (off : Nat)
    (h : anyVariable fs = false) : (structParts fs vs off).2 = [] := by
  induction fs generalizing vs off with
  | nil => cases vs <;> rfl
  | cons f fs ih =>
      cases vs with
      | nil => rfl
      | cons v vs =>
          simp only [anyVariable, Bool.or_eq_false_iff] at h
          simp [structParts, h.1, ih _ _ h.2]

theorem structFixedLen_of_allFixed (fs : List Schema) (h : anyVariable fs = false) :
    structFixedLen fs = fixedSizeSum fs := by
  induction fs with
  | nil => rfl
  | cons f fs ih =>
      simp only [anyVariable, Bool.or_eq_false_iff] at h
      simp [structFixedLen, fixedSizeSum, h.1, ih h.2]

theorem structParts_fst_len (fs : List Schema) (vs : List Value) (off : Nat)
    (hwt : WTFields fs vs = true) (hnn : NoNullList vs = true)
    (H : ∀ f v, f ∈ fs → isVariableSizeType f = false → WT f v = true → NoNull v = true →
      (encV f v).length = fixedSize f) :
    (structParts fs vs off).1.length = structFixedLen fs := by
  induction fs generalizing vs off with
  | nil => cases vs with
      | nil => rfl
      | cons v vs => simp [WTFields] at hwt
  | cons f fs ih =>
      cases vs with
      | nil => simp [WTFields] at hwt
      | cons v vs =>
          simp only [WTFields, Bool.and_eq_true] at hwt
          simp only [NoNullList, Bool.and_eq_true] at hnn
          by_cases hv : isVariableSizeType f
          · simp [structParts, hv, structFixedLen,
              ih _ _ hwt.2 hnn.2 (fun g w hg => H g w (List.mem_cons_of_mem _ hg))]
          · simp [structParts, hv, structFixedLen,
              H f v (List.mem_cons_self _ _) (by simp [hv]) hwt.1 hnn.1,
              ih _ _ hwt.2 hnn.2 (fun g w hg => H g w (List.mem_cons_of_mem _ hg))]

/-! ## Predicate extraction helpers -/

theorem anyVariable_false_mem {fs : List Schema} {f : Schema}
    (h : anyVariable fs = false) (hm : f ∈ fs) : isVariableSizeType f = false := by
  induction fs with
  | nil => cases hm
  | cons g gs ih =>
      simp only [anyVariable, Bool.or_eq_false_iff] at h
      rcases List.mem_cons.mp hm with h1 | h1
      · subst h1; exact h.1
      · exact ih h.2 h1

theorem GoodFields_mem {fs : List Schema} {f : Schema}
    (h : GoodFields fs = true) (hm : f ∈ fs) : Good f = true := by
  induction fs with
  | nil => cases hm
  | cons g gs ih =>
      simp only [GoodFields, Bool.and_eq_true] at h
      rcases List.mem_cons.mp hm with h1 | h1
      · subst h1; exact h.1
      · exact ih h.2 h1

/-! ## Length of a fixed-size encoding -/

theorem encLenFixedAux : ∀ N s v, schemaDepth s ≤ N → isVariableSizeType s = false →
    WT s v = true → NoNull v = true → (encV s v).length = fixedSize s := by
  intro N
  induction N with
  | zero => intro s v hd; cases s <;> simp [schemaDepth] at hd
  | succ N ih =>
      intro s v hd hvar hwt hnn
      cases s with
      | bool => cases v <;> simp [WT] at hwt <;> simp [encV, fixedSize]
      | uint w => cases v <;> simp [WT] at hwt <;> simp [encV, fixedSize]
      | byteList => simp [isVariableSizeType] at hvar
      | list e => simp [isVariableSizeType] at hvar
      | vector n e =>
          cases v <;> simp [WT] at hwt
          case vector vs =>
            simp only [isVariableSizeType] at hvar
            simp only [NoNull] at hnn
            simp only [schemaDepth, Nat.add_le_add_iff_right] at hd
            rw [encV, if_neg (by simp [hvar]),
              flatten_len_of_const (m := fixedSize e)
                (fun w hw => ih e w hd hvar (WTElems_mem hwt.2 hw) (NoNullList_mem hnn hw)),
              hwt.1, fixedSize]
      | container fs =>
          cases v with
          | null => simp [NoNull] at hnn
          | container vs =>
              simp only [WT] at hwt
              simp only [NoNull] at hnn
              simp only [isVariableSizeType] at hvar
              simp only [schemaDepth, Nat.add_le_add_iff_right] at hd
              rw [encV, List.length_append,
                structParts_snd_of_allFixed _ _ _ hvar, List.length_nil,
                structParts_fst_len _ _ _ hwt hnn
                  (fun f w hf hvf hwf hnf =>
                    ih f w (le_trans (depth_le_of_mem hf) hd) hvf hwf hnf),
                structFixedLen_of_allFixed _ hvar, fixedSize, Nat.add_zero]
          | _ => simp [WT] at hwt

theorem encLenFixed {s : Schema} {v : Value} (hvar : isVariableSizeType s = false)
    (hwt : WT s v = true) (hnn : NoNull v = true) : (encV s v).length = fixedSize s :=
  encLenFixedAux (schemaDepth s) s v le_rfl hvar hwt hnn

/-! ## The serialized size function agrees with the encoder -/

theorem zeroSize_eq_fixedAux : ∀ N s, schemaDepth s ≤ N → isVariableSizeType s = false →
    zeroSize s = fixedSize s := by
  intro N
  induction N with
  | zero => intro s hd; cases s <;> simp [schemaDepth] at hd
  | succ N ih =>
      intro s hd hvar
      cases s with
      | bool => rfl
      | uint w => rfl
      | byteList => simp [isVariableSizeType] at hvar
      | list e => simp [isVariableSizeType] at hvar
      | vector n e =>
          simp only [isVariableSizeType] at hvar
          simp only [schemaDepth, Nat.add_le_add_iff_right] at hd
          simp [zeroSize, fixedSize, hvar, ih e hd hvar]
      | container fs =>
          simp only [isVariableSizeType] at hvar
          simp only [schemaDepth, Nat.add_le_add_iff_right] at hd
          rw [zeroSize, fixedSize]
          induction fs with
          | nil => rfl
          | cons f gs ihl =>
              simp only [anyVariable, Bool.or_eq_false_iff] at hvar
              simp only [depthMax, max_le_iff] at hd
              simp [zeroSizeFields, fixedSizeSum, hvar.1,
                ih f hd.1 hvar.1, ihl hvar.2 hd.2]

theorem zeroSize_eq_fixed {s : Schema} (hvar : isVariableSizeType s = false) :
    zeroSize s = fixedSize s :=
  zeroSize_eq_fixedAux (schemaDepth s) s le_rfl hvar

theorem sizeSum_of_const {e : Schema} {vs : List Value} {m : Nat}
    (h : ∀ v ∈ vs, determineSize e v = m) : sizeSum e vs = vs.length * m := by
  induction vs with
  | nil => simp [sizeSum]
  | cons v vs ih =>
      simp only [sizeSum, h v (List.mem_cons_self _ _), List.length_cons,
        ih (fun w hw => h w (List.mem_cons_of_mem _ hw))]
      ring

theorem detSizeFixedAux : ∀ N s v, schemaDepth s ≤ N → isVariableSizeType s = false →
    WT s v = true → determineSize s v = fixedSize s := by
  intro N
  induction N with
  | zero => intro s v hd; cases s <;> simp [schemaDepth] at hd
  | succ N ih =>
      intro s v hd hvar hwt
      cases s with
      | bool => cases v <;> simp [WT] at hwt <;> simp [determineSize, fixedSize]
      | uint w => cases v <;> simp [WT] at hwt <;> simp [determineSize, fixedSize]
      | byteList => simp [isVariableSizeType] at hvar
      | list e => simp [isVariableSizeType] at hvar
      | vector n e =>
          cases v <;> simp [WT] at hwt
          case vector vs =>
            simp only [isVariableSizeType] at hvar
            simp only [schemaDepth, Nat.add_le_add_iff_right] at hd
            rw [determineSize, if_neg (by simp [hvar]),
              sizeSum_of_const (m := fixedSize e)
                (fun w hw => ih e w hd hvar (WTElems_mem hwt.2 hw)),
              hwt.1, fixedSize]
      | container fs =>
          cases v with
          | null =>
              rw [determineSize, fixedSize]
              exact zeroSize_eq_fixed hvar
          | container vs =>
              simp only [WT] at hwt
              simp only [isVariableSizeType] at hvar
              rw [determineSize, fixedSize]
              clear hd
              induction fs generalizing vs with
              | nil => cases vs with
                  | nil => rfl
                  | cons v vs => simp [WTFields] at hwt
              | cons f gs ihl =>
                  cases vs with
                  | nil => simp [WTFields] at hwt
                  | cons v vs =>
                      simp only [WTFields, Bool.and_eq_true] at hwt
                      simp only [anyVariable, Bool.or_eq_false_iff] at hvar
                      simp [sizeFieldsSum, fixedSizeSum, hvar.1, ihl hvar.2 vs hwt.2]
          | _ => simp [WT] at hwt

theorem detSizeFixed {s : Schema} {v : Value} (hvar : isVariableSizeType s = false)
    (hwt : WT s v = true) : determineSize s v = fixedSize s :=
  detSizeFixedAux (schemaDepth s) s v le_rfl hvar hwt

theorem flatten_len_eq_sizeSum {e : Schema} {vs : List Value}
    (h : ∀ v ∈ vs, (encV e v).length = determineSize e v) :
    (encElems e vs).flatten.length = sizeSum e vs := by
  induction vs with
  | nil => simp [encElems, sizeSum]
  | cons v vs ih =>
      simp [encElems, sizeSum, h v (List.mem_cons_self _ _),
        ih (fun w hw => h w (List.mem_cons_of_mem _ hw))]

theorem structParts_len_sum (fs : List Schema) (vs : List Value) (off : Nat)
    (hwt : WTFields fs vs = true) (hnn : NoNullList vs = true)
    (H : ∀ f v, f ∈ fs → WT f v = true → NoNull v = true →
      (encV f v).length = determineSize f v) :
    (structParts fs vs off).1.length + (structParts fs vs off).2.length
      = sizeFieldsSum fs vs := by
  induction fs generalizing vs off with
  | nil => cases vs with
      | nil => simp [structParts, sizeFieldsSum]
      | cons v vs => simp [WTFields] at hwt
  | cons f gs ih =>
      cases vs with
      | nil => simp [WTFields] at hwt
      | cons v vs =>
          simp only [WTFields, Bool.and_eq_true] at hwt
          simp only [NoNullList, Bool.and_eq_true] at hnn
          have hH := H f v (List.mem_cons_self _ _) hwt.1 hnn.1
          cases hv : isVariableSizeType f with
          | true =>
              have hrec := ih vs (off + (encV f v).length) hwt.2 hnn.2
                (fun g w hg => H g w (List.mem_cons_of_mem _ hg))
              simp only [structParts, hv, sizeFieldsSum, List.length_append, putLE_length]
              simp only [if_true, eq_self_iff_true]
              simp only [List.length_append, putLE_length]
              omega
          | false =>
              have hrec := ih vs off hwt.2 hnn.2
                (fun g w hg => H g w (List.mem_cons_of_mem _ hg))
              have hfx : (encV f v).length = fixedSize f :=
                encLenFixed (by simp [hv]) hwt.1 hnn.1
              simp only [structParts, hv, sizeFieldsSum, List.length_append]
              simp only [Bool.false_eq_true, if_false]
              simp only [List.length_append]
              omega

theorem encLen_eq_detSizeAux : ∀ N s v, schemaDepth s ≤ N → WT s v = true →
    NoNull v = true → (encV s v).length = determineSize s v := by
  intro N
  induction N with
  | zero => intro s v hd; cases s <;> simp [schemaDepth] at hd
  | succ N ih =>
      intro s v hd hwt hnn
      cases s with
      | bool => cases v <;> simp [WT] at hwt <;> simp [encV, determineSize]
      | uint w => cases v <;> simp [WT] at hwt <;> simp [encV, determineSize]
      | byteList => cases v <;> simp [WT] at hwt <;> simp [encV, determineSize]
      | vector n e =>
          cases v <;> simp [WT] at hwt
          case vector vs =>
            simp only [NoNull] at hnn
            simp only [schemaDepth, Nat.add_le_add_iff_right] at hd
            have hflat := @flatten_len_eq_sizeSum e vs
              (fun w hw => ih e w hd (WTElems_mem hwt.2 hw) (NoNullList_mem hnn hw))
            by_cases hv : isVariableSizeType e
            · simp [encV, determineSize, hv, offsetTable_length, encElems_length, hflat]
            · simp [encV, determineSize, hv, hflat]
      | list e =>
          cases v <;> simp [WT] at hwt
          case list vs =>
            simp only [NoNull] at hnn
            simp only [schemaDepth, Nat.add_le_add_iff_right] at hd
            have hflat := @flatten_len_eq_sizeSum e vs
              (fun w hw => ih e w hd (WTElems_mem hwt hw) (NoNullList_mem hnn hw))
            by_cases hv : isVariableSizeType e
            · simp [encV, determineSize, hv, offsetTable_length, encElems_length, hflat]
            · simp [encV, determineSize, hv, hflat]
      | container fs =>
          cases v with
          | null => simp [NoNull] at hnn
          | container vs =>
              simp only [WT] at hwt
              simp only [NoNull] at hnn
              simp only [schemaDepth, Nat.add_le_add_iff_right] at hd
              rw [encV, List.length_append, determineSize]
              exact structParts_len_sum fs vs _ hwt hnn
                (fun f w hf => ih f w (le_trans (depth_le_of_mem hf) hd))
          | _ => simp [WT] at hwt

theorem encLen_eq_detSize {s : Schema} {v : Value} (hwt : WT s v = true)
    (hnn : NoNull v = true) : (encV s v).length = determineSize s v :=
  encLen_eq_detSizeAux (schemaDepth s) s v le_rfl hwt hnn

/-! ## Zero values -/

theorem NoNullList_replicate {v : Value} (n : Nat) (h : NoNull v = true) :
    NoNullList (List.replicate n v) = true := by
  induction n with
  | zero => rfl
  | succ n ih => simp [List.replicate, NoNullList, h, ih]

theorem NoNull_zeroAux : ∀ N s, schemaDepth s ≤ N → NoNull (zeroValue s) = true := by
  intro N
  induction N with
  | zero => intro s hd; cases s <;> simp [schemaDepth] at hd
  | succ N ih =>
      intro s hd
      cases s with
      | bool => rfl
      | uint w => rfl
      | byteList => rfl
      | list e => rfl
      | vector n e =>
          simp only [schemaDepth, Nat.add_le_add_iff_right] at hd
          simp only [zeroValue, NoNull]
          exact NoNullList_replicate n (ih e hd)
      | container fs =>
          simp only [schemaDepth, Nat.add_le_add_iff_right] at hd
          simp only [zeroValue, NoNull]
          induction fs with
          | nil => rfl
          | cons f gs ihl =>
              simp only [depthMax, max_le_iff] at hd
              simp [zeroFields, NoNullList, ih f hd.1, ihl hd.2]

theorem NoNull_zero (s : Schema) : NoNull (zeroValue s) = true :=
  NoNull_zeroAux (schemaDepth s) s le_rfl

theorem encLen_zeroAux : ∀ N s, schemaDepth s ≤ N →
    (encV s (zeroValue s)).length = zeroSize s := by
  intro N
  induction N with
  | zero => intro s hd; cases s <;> simp [schemaDepth] at hd
  | succ N ih =>
      intro s hd
      cases s with
      | bool => rfl
      | uint w => simp [zeroValue, encV, zeroSize]
      | byteList => rfl
      | list e => cases hv : isVariableSizeType e <;>
          simp [zeroValue, encV, zeroSize, hv, encElems, offsetTable]
      | vector n e =>
          simp only [schemaDepth, Nat.add_le_add_iff_right] at hd
          have hconst : ∀ v ∈ List.replicate n (zeroValue e), (encV e v).length = zeroSize e := by
            intro v hv
            rw [List.eq_of_mem_replicate hv]
            exact ih e hd
          cases hv : isVariableSizeType e with
          | true =>
              simp only [zeroValue, encV, hv, if_true, eq_self_iff_true, zeroSize,
                List.length_append, offsetTable_length, encElems_length,
                flatten_len_of_const hconst, List.length_replicate]
              ring
          | false =>
              simp only [zeroValue, encV, hv, Bool.false_eq_true, if_false, zeroSize,
                flatten_len_of_const hconst, List.length_replicate]
      | container fs =>
          simp only [schemaDepth, Nat.add_le_add_iff_right] at hd
          simp only [zeroValue, encV, zeroSize, List.length_append]
          rw [show structFixedLen fs = structFixedLen fs from rfl]
          generalize structFixedLen fs = off
          induction fs generalizing off with
          | nil => simp [zeroFields, structParts, zeroSizeFields]
          | cons f gs ihl =>
              simp only [depthMax, max_le_iff] at hd
              cases hv : isVariableSizeType f with
              | true =>
                  simp only [zeroFields, structParts, hv, if_true, eq_self_iff_true,
                    zeroSizeFields, List.length_append, putLE_length]
                  have hz := ih f hd.1
                  have := ihl hd.2 (off + (encV f (zeroValue f)).length)
                  omega
              | false =>
                  simp only [zeroFields, structParts, hv, Bool.false_eq_true, if_false,
                    zeroSizeFields, List.length_append]
                  have hz := ih f hd.1
                  have := ihl hd.2 off
                  omega

theorem encLen_zero (s : Schema) : (encV s (zeroValue s)).length = zeroSize s :=
  encLen_zeroAux (schemaDepth s) s le_rfl

/-! ## Null substitution is the identity on null-free values -/

theorem denull_idAux : ∀ N s v, schemaDepth s ≤ N → NoNull v = true → denull s v = v := by
  intro N
  induction N with
  | zero => intro s v hd; cases s <;> simp [schemaDepth] at hd
  | succ N ih =>
      intro s v hd hnn
      cases s with
      | bool => cases v <;> first | rfl | simp [NoNull] at hnn
      | uint w => cases v <;> first | rfl | simp [NoNull] at hnn
      | byteList => cases v <;> first | rfl | simp [NoNull] at hnn
      | vector n e =>
          simp only [schemaDepth, Nat.add_le_add_iff_right] at hd
          cases v with
          | null => simp [NoNull] at hnn
          | vector vs =>
              simp only [NoNull] at hnn
              simp only [denull]
              refine congrArg Value.vector ?_
              induction vs with
              | nil => simp [denullElems]
              | cons w ws ihl =>
                  simp only [NoNullList, Bool.and_eq_true] at hnn
                  simp [denullElems, ih e w hd hnn.1, ihl hnn.2]
          | bool b => rfl
          | uint x => rfl
          | bytes bs => rfl
          | list ws => rfl
          | container ws => rfl
      | list e =>
          simp only [schemaDepth, Nat.add_le_add_iff_right] at hd
          cases v with
          | null => simp [NoNull] at hnn
          | list vs =>
              simp only [NoNull] at hnn
              simp only [denull]
              refine congrArg Value.list ?_
              induction vs with
              | nil => simp [denullElems]
              | cons w ws ihl =>
                  simp only [NoNullList, Bool.and_eq_true] at hnn
                  simp [denullElems, ih e w hd hnn.1, ihl hnn.2]
          | bool b => rfl
          | uint x => rfl
          | bytes bs => rfl
          | vector ws => rfl
          | container ws => rfl
      | container fs =>
          simp only [schemaDepth, Nat.add_le_add_iff_right] at hd
          cases v with
          | null => simp [NoNull] at hnn
          | container vs =>
              simp only [NoNull] at hnn
              simp only [denull]
              refine congrArg Value.container ?_
              induction fs generalizing vs with
              | nil => simp [denullFields]
              | cons f gs ihl =>
                  simp only [depthMax, max_le_iff] at hd
                  cases vs with
                  | nil => simp [denullFields]
                  | cons w ws =>
                      simp only [NoNullList, Bool.and_eq_true] at hnn
                      simp [denullFields, ih f w hd.1 hnn.1, ihl hd.2 ws hnn.2]
          | bool b => rfl
          | uint x => rfl
          | bytes bs => rfl
          | vector ws => rfl
          | list ws => rfl

theorem denull_id {s : Schema} {v : Value} (hnn : NoNull v = true) : denull s v = v :=
  denull_idAux (schemaDepth s) s v le_rfl hnn

theorem denull_zeroValue (s : Schema) : denull s (zeroValue s) = zeroValue s :=
  denull_id (NoNull_zero s)

/-! ## Value uniqueness at serialized size zero -/

theorem zeroOfFixedSizeZeroAux : ∀ N s v, schemaDepth s ≤ N →
    isVariableSizeType s = false → fixedSize s = 0 → WT s v = true → NoNull v = true →
    v = zeroValue s := by
  intro N
  induction N with
  | zero => intro s v hd; cases s <;> simp [schemaDepth] at hd
  | succ N ih =>
      intro s v hd hvar hsz hwt hnn
      cases s with
      | bool => simp [fixedSize] at hsz
      | uint w =>
          cases v <;> simp [WT] at hwt
          case uint x =>
            rcases hwt.1 with ((h | h) | h) | h <;> simp [fixedSize, h] at hsz
      | byteList => simp [isVariableSizeType] at hvar
      | list e => simp [isVariableSizeType] at hvar
      | vector n e =>
          cases v <;> simp [WT] at hwt
          case vector vs =>
            simp only [isVariableSizeType] at hvar
            simp only [NoNull] at hnn
            simp only [schemaDepth, Nat.add_le_add_iff_right] at hd
            simp only [fixedSize, Nat.mul_eq_zero] at hsz
            rw [zeroValue]
            rcases hsz with h | h
            · subst h
              rw [List.length_eq_zero.mp hwt.1]
              rfl
            · refine congrArg Value.vector (List.eq_replicate_iff.mpr ⟨hwt.1, ?_⟩)
              intro b hb
              exact ih e b hd hvar h (WTElems_mem hwt.2 hb) (NoNullList_mem hnn hb)
      | container fs =>
          cases v with
          | null => simp [NoNull] at hnn
          | container vs =>
              simp only [WT] at hwt
              simp only [NoNull] at hnn
              simp only [isVariableSizeType] at hvar
              simp only [fixedSize] at hsz
              simp only [schemaDepth, Nat.add_le_add_iff_right] at hd
              rw [zeroValue]
              refine congrArg Value.container ?_
              induction fs generalizing vs with
              | nil => cases vs with
                  | nil => rfl
                  | cons w ws => simp [WTFields] at hwt
              | cons f gs ihl =>
                  cases vs with
                  | nil => simp [WTFields] at hwt
                  | cons w ws =>
                      simp only [WTFields, Bool.and_eq_true] at hwt
                      simp only [NoNullList, Bool.and_eq_true] at hnn
                      simp only [anyVariable, Bool.or_eq_false_iff] at hvar
                      simp only [fixedSizeSum, Nat.add_eq_zero] at hsz
                      simp only [depthMax, max_le_iff] at hd
                      rw [zeroFields]
                      rw [ih f w hd.1 hvar.1 hsz.1 hwt.1 hnn.1]
                      rw [ihl hvar.2 hsz.2 ws hnn.2 hwt.2 hd.2]
          | _ => simp [WT] at hwt

theorem zeroOfFixedSizeZero {s : Schema} {v : Value} (hvar : isVariableSizeType s = false)
    (hsz : fixedSize s = 0) (hwt : WT s v = true) (hnn : NoNull v = true) :
    v = zeroValue s :=
  zeroOfFixedSizeZeroAux (schemaDepth s) s v le_rfl hvar hsz hwt hnn

theorem structFixedLen_pos {fs : List Schema} (h : anyVariable fs = true) :
    4 ≤ structFixedLen fs := by
  induction fs with
  | nil => simp [anyVariable] at h
  | cons f gs ih =>
      rw [structFixedLen]
      cases hv : isVariableSizeType f with
      | true => simp
      | false =>
          simp only [anyVariable, hv, Bool.false_or] at h
          have := ih h
          omega

theorem zeroOfVarEmptyEnc {s : Schema} {v : Value} (hvar : isVariableSizeType s = true)
    (hwt : WT s v = true) (hg : Good s = true) (hnn : NoNull v = true)
    (h0 : (encV s v).length = 0) : v = zeroValue s := by
  cases s with
  | bool => simp [isVariableSizeType] at hvar
  | uint w => simp [isVariableSizeType] at hvar
  | byteList =>
      cases v <;> simp [WT] at hwt
      case bytes bs =>
        simp only [encV] at h0
        rw [zeroValue, List.length_eq_zero.mp h0]
  | vector n e =>
      cases v <;> simp [WT] at hwt
      case vector vs =>
        simp only [isVariableSizeType] at hvar
        simp only [Good, Bool.and_eq_true, hvar, Bool.not_true, Bool.false_or,
          decide_eq_true_eq] at hg
        rw [encV, if_pos hvar] at h0
        simp only [List.length_append, offsetTable_length, encElems_length,
          Nat.add_eq_zero, Nat.mul_eq_zero] at h0
        exfalso
        omega
  | list e =>
      cases v <;> simp [WT] at hwt
      case list vs =>
        simp only [NoNull] at hnn
        simp only [Good, Bool.and_eq_true] at hg
        rw [zeroValue]
        refine congrArg Value.list ?_
        cases hv : isVariableSizeType e with
        | true =>
            rw [encV, if_pos hv] at h0
            simp only [List.length_append, offsetTable_length, encElems_length,
              Nat.add_eq_zero, Nat.mul_eq_zero] at h0
            have : vs.length = 0 := by omega
            exact List.length_eq_zero.mp this
        | false =>
            simp only [hv, Bool.false_or, decide_eq_true_eq] at hg
            rw [encV, if_neg (by simp [hv])] at h0
            rw [flatten_len_of_const (m := fixedSize e)
              (fun w hw => encLenFixed (by simp [hv]) (WTElems_mem hwt hw)
                (NoNullList_mem hnn hw))] at h0
            rcases Nat.mul_eq_zero.mp h0 with h | h
            · exact List.length_eq_zero.mp h
            · omega
  | container fs =>
      cases v with
      | null => simp [NoNull] at hnn
      | container vs =>
          simp only [WT] at hwt
          simp only [NoNull] at hnn
          simp only [isVariableSizeType] at hvar
          rw [encV, List.length_append] at h0
          rw [structParts_fst_len _ _ _ hwt hnn
            (fun f w hf hvf hwf hnf => encLenFixed hvf hwf hnf)] at h0
          have := structFixedLen_pos hvar
          omega
      | _ => simp [WT] at hwt

/-! ## Decoder correctness: primitive and sequential cases -/

theorem pow256 (w : Nat) : 2 ^ (8 * w) = 256 ^ w := by
  rw [Nat.pow_mul]

theorem decodeBool_pos (b : Bool) (pre post : List Nat) :
    decodeV .bool (pre ++ encV .bool (.bool b) ++ post) pre.length
      = some (.bool b, pre.length + (encV .bool (.bool b)).length) := by
  cases b with
  | false =>
      rw [show encV .bool (.bool false) = [0] from rfl,
        show pre ++ [0] ++ post = pre ++ 0 :: post from by simp]
      simp only [decodeV, get?_append_cons]
      rfl
  | true =>
      rw [show encV .bool (.bool true) = [1] from rfl,
        show pre ++ [1] ++ post = pre ++ 1 :: post from by simp]
      simp only [decodeV, get?_append_cons]
      rfl

theorem decodeUint_pos (w n : Nat) (hn : n < 2 ^ (8 * w)) (pre post : List Nat) :
    decodeV (.uint w) (pre ++ encV (.uint w) (.uint n) ++ post) pre.length
      = some (.uint n, pre.length + (encV (.uint w) (.uint n)).length) := by
  rw [pow256] at hn
  have h := readLE_of_append pre (putLE w n) post w (putLE_length w n)
  simp only [encV, decodeV, h, fromLE_putLE_of_lt hn, putLE_length]

theorem decodeSeq_pos {dec : List Nat → Nat → Option (Value × Nat)} {e : Schema}
    (es : List Value)
    (H : ∀ v ∈ es, ∀ p q : List Nat, dec (p ++ encV e v ++ q) p.length
          = some (v, p.length + (encV e v).length)) :
    ∀ pre post : List Nat,
      decodeSeq dec es.length (pre ++ (encElems e es).flatten ++ post) pre.length
        = some (es, pre.length + (encElems e es).flatten.length) := by
  induction es with
  | nil =>
      intro pre post
      simp [decodeSeq, encElems]
  | cons v es ih =>
      intro pre post
      have hassoc : pre ++ (encElems e (v :: es)).flatten ++ post
          = pre ++ encV e v ++ ((encElems e es).flatten ++ post) := by
        simp [encElems, List.append_assoc]
      have hrec := ih (fun w hw => H w (List.mem_cons_of_mem _ hw)) (pre ++ encV e v) post
      rw [show (pre ++ encV e v) ++ (encElems e es).flatten ++ post
          = pre ++ encV e v ++ ((encElems e es).flatten ++ post) by
        simp [List.append_assoc]] at hrec
      rw [List.length_append] at hrec
      rw [List.length_cons, decodeSeq, hassoc]
      simp only [H v (List.mem_cons_self _ _) pre ((encElems e es).flatten ++ post), hrec]
      simp [encElems, Nat.add_assoc]

/-! ## Reading the offset table -/

theorem sliceGo_shift (A l : List Nat) (a b : Nat) :
    sliceGo (A ++ l) (A.length + a) (A.length + b) = sliceGo l a b := by
  unfold sliceGo
  rw [List.take_append_eq_append_take]
  simp [List.take_of_length_le, List.drop_append_eq_append_drop]

theorem readLE_shift (A l : List Nat) (i w : Nat) :
    readLE (A ++ l) (A.length + i) w = readLE l i w := by
  unfold readLE
  rw [List.length_append]
  by_cases h : i + w ≤ l.length
  · rw [if_pos (by omega), if_pos h, Nat.add_assoc, sliceGo_shift]
  · rw [if_neg (by omega), if_neg h]

theorem offsetTable_append (off : Nat) (xs ys : List (List Nat)) :
    offsetTable off (xs ++ ys)
      = offsetTable off xs ++ offsetTable (off + xs.flatten.length) ys := by
  induction xs generalizing off with
  | nil => simp [offsetTable]
  | cons x xs ih =>
      simp only [List.cons_append, offsetTable, List.flatten_cons, List.length_append,
        List.append_eq]
      rw [ih]
      simp [List.append_assoc, Nat.add_assoc]

theorem readLE_table (off : Nat) (es : List (List Nat)) (D : List Nat) :
    ∀ j, j < es.length →
      readLE (offsetTable off es ++ D) (4 * j) 4
        = some ((off + ((es.take j).flatten).length) % 2 ^ 32) := by
  induction es generalizing off D with
  | nil => intro j hj; simp at hj
  | cons e es ih =>
      intro j hj
      cases j with
      | zero =>
          have h := readLE_of_append ([] : List Nat) (putLE 4 (off % 2 ^ 32))
            (offsetTable (off + e.length) es ++ D) 4 (putLE_length _ _)
          simp only [List.nil_append, List.length_nil] at h
          rw [offsetTable, List.append_assoc]
          simpa [fromLE_putLE, Nat.mod_mod_of_dvd _ dvd_rfl] using h
      | succ j =>
          have h := readLE_shift (putLE 4 (off % 2 ^ 32))
            (offsetTable (off + e.length) es ++ D) (4 * j) 4
          rw [putLE_length] at h
          rw [offsetTable, List.append_assoc,
            show 4 * (j + 1) = 4 + 4 * j by ring, h,
            ih (off + e.length) D j (by simpa using hj)]
          simp [List.take_cons, List.flatten_cons]
          ring_nf

/-! ## Canonical decoding of a variable-element sequence -/

theorem take_append_cons (A : List (List Nat)) (b : List Nat) (C : List (List Nat)) :
    (A ++ b :: C).take (A.length + 1) = A ++ [b] := by
  rw [List.take_append_eq_append_take, List.take_of_length_le (by omega)]
  simp

theorem compSliceLoop_canonical
    {dec : List Nat → Nat → Option (Value × Nat)} {e : Schema} (es : List Value)
    (Helem : ∀ v ∈ es, ∃ k, dec (encV e v) 0 = some (v, k))
    (hlen : 4 * es.length + (encElems e es).flatten.length < 2 ^ 32) :
    ∀ (rest front : List Value), es = front ++ rest →
    ∀ fuel, rest.length < fuel →
      compSliceLoop dec
        (offsetTable (4 * es.length) (encElems e es) ++ (encElems e es).flatten)
        0 (4 * es.length) fuel (4 * front.length)
        (4 * es.length + (encElems e front).flatten.length)
      = some (rest, 4 * es.length) := by
  intro rest
  induction rest with
  | nil =>
      intro front hsplit fuel hfuel
      have hfr : front = es := by simpa using hsplit.symm
      subst hfr
      cases fuel with
      | zero => omega
      | succ fuel => rw [compSliceLoop, if_neg (by omega)]
  | cons v rest2 ih =>
      intro front hsplit fuel hfuel
      cases fuel with
      | zero => omega
      | succ fuel =>
        have hL : es.length = front.length + 1 + rest2.length := by
          rw [hsplit]; simp; try omega
        have hencs : encElems e es
            = encElems e front ++ encV e v :: encElems e rest2 := by
          rw [hsplit, encElems_append, encElems]
        have hD : (encElems e es).flatten
            = (encElems e front).flatten ++ encV e v ++ (encElems e rest2).flatten := by
          rw [hencs]
          simp [List.flatten_append, List.append_assoc]
        have hfl : (encElems e front).length = front.length := encElems_length e front
        have hDlen : (encElems e front).flatten.length + (encV e v).length
            ≤ (encElems e es).flatten.length := by
          rw [hD, List.length_append, List.length_append]
          omega
        have hTlen : (offsetTable (4 * es.length) (encElems e es)).length
            = 4 * es.length := by
          rw [offsetTable_length, encElems_length]
        have hInLen : (offsetTable (4 * es.length) (encElems e es)
            ++ (encElems e es).flatten).length
            = 4 * es.length + (encElems e es).flatten.length := by
          rw [List.length_append, hTlen]
        rw [compSliceLoop, if_pos (by omega)]
        have hNO : (if 4 * front.length + 4 = 4 * es.length then
              some (offsetTable (4 * es.length) (encElems e es)
                ++ (encElems e es).flatten).length
            else (readLE (offsetTable (4 * es.length) (encElems e es)
                ++ (encElems e es).flatten) (4 * front.length + 4) 4).map
                  (fun x => 0 + x))
            = some (4 * es.length + ((encElems e front).flatten.length
                + (encV e v).length)) := by
          cases rest2 with
          | nil =>
              simp only [List.length_nil] at hL
              rw [if_pos (by omega), hInLen]
              have hR : (encElems e es).flatten.length
                  = (encElems e front).flatten.length + (encV e v).length := by
                rw [hD]
                simp [encElems]
              rw [hR]
          | cons v2 rest3 =>
              simp only [List.length_cons] at hL
              have hlt : front.length + 1 < es.length := by omega
              rw [if_neg (by omega),
                show 4 * front.length + 4 = 4 * (front.length + 1) by ring,
                readLE_table _ _ _ _ (by rw [encElems_length]; omega)]
              rw [hencs, ← hfl, take_append_cons]
              have hflat2 : ((encElems e front ++ [encV e v]).flatten).length
                  = (encElems e front).flatten.length + (encV e v).length := by
                rw [List.flatten_append, List.length_append]
                simp
              rw [hflat2, Nat.mod_eq_of_lt (by omega)]
              simp [Nat.add_assoc]
        have hmem : v ∈ es := by rw [hsplit]; simp
        rcases Helem v hmem with ⟨k, hk⟩
        have hslice : sliceGo (offsetTable (4 * es.length) (encElems e es)
              ++ (encElems e es).flatten)
            (4 * es.length + (encElems e front).flatten.length)
            (4 * es.length + ((encElems e front).flatten.length + (encV e v).length))
            = encV e v := by
          have h1 := sliceGo_shift (offsetTable (4 * es.length) (encElems e es))
            ((encElems e es).flatten) ((encElems e front).flatten.length)
            ((encElems e front).flatten.length + (encV e v).length)
          rw [hTlen] at h1
          rw [h1, hD]
          exact sliceGo_of_append _ _ _
        simp only [hNO]
        rw [if_neg (by omega), if_pos (by rw [hInLen]; omega)]
        simp only [hslice, hk]
        have hrec := ih (front ++ [v]) (by rw [hsplit]; simp) fuel (by
          simp only [List.length_cons] at hfuel; omega)
        rw [show (front ++ [v]).length = front.length + 1 by simp] at hrec
        rw [show encElems e (front ++ [v]) = encElems e front ++ [encV e v] from by
          rw [encElems_append]; rfl] at hrec
        rw [List.flatten_append, List.length_append,
          show ([encV e v] : List (List Nat)).flatten.length = (encV e v).length from by
            simp] at hrec
        rw [show 4 * (front.length + 1) = 4 * front.length + 4 by ring] at hrec
        simp only [hrec]

theorem compositeSliceUnmarshal_canonical
    {dec : List Nat → Nat → Option (Value × Nat)} {e : Schema} (es : List Value)
    (zeroElem : Value)
    (Helem : ∀ v ∈ es, ∃ k, dec (encV e v) 0 = some (v, k))
    (hlen : 4 * es.length + (encElems e es).flatten.length < 2 ^ 32)
    (hne : es ≠ []) :
    compositeSliceUnmarshal dec zeroElem
      (offsetTable (4 * es.length) (encElems e es) ++ (encElems e es).flatten) 0
      = some (es, 4 * es.length) := by
  have hTlen : (offsetTable (4 * es.length) (encElems e es)).length = 4 * es.length := by
    rw [offsetTable_length, encElems_length]
  have hInLen : (offsetTable (4 * es.length) (encElems e es)
      ++ (encElems e es).flatten).length
      = 4 * es.length + (encElems e es).flatten.length := by
    rw [List.length_append, hTlen]
  have hpos : 1 ≤ es.length := by
    cases es with
    | nil => exact absurd rfl hne
    | cons v es2 => simp
  rw [compositeSliceUnmarshal, if_neg (by omega)]
  have hread : readLE (offsetTable (4 * es.length) (encElems e es)
      ++ (encElems e es).flatten) 0 4 = some (4 * es.length) := by
    have h := readLE_table (4 * es.length) (encElems e es) ((encElems e es).flatten) 0
      (by rw [encElems_length]; omega)
    simp only [Nat.mul_zero, List.take_zero, List.flatten_nil, List.length_nil,
      Nat.add_zero] at h
    rw [h, Nat.mod_eq_of_lt (by omega)]
  simp only [hread]
  have hloop := compSliceLoop_canonical es Helem hlen es [] (by simp)
    ((offsetTable (4 * es.length) (encElems e es) ++ (encElems e es).flatten).length + 8)
    (by omega)
  simp only [List.length_nil, Nat.mul_zero, encElems, List.flatten_nil,
    Nat.add_zero] at hloop
  rw [show (0 : Nat) + 4 * es.length = 4 * es.length by omega]
  cases es with
  | nil => exact absurd rfl hne
  | cons v es2 => simp only [hloop]

theorem compArrayLoop_canonical
    {dec : List Nat → Nat → Option (Value × Nat)} {e : Schema} (es : List Value)
    (Helem : ∀ v ∈ es, ∃ k, dec (encV e v) 0 = some (v, k))
    (hlen : 4 * es.length + (encElems e es).flatten.length < 2 ^ 32) :
    ∀ (rest front : List Value), es = front ++ rest →
    ∀ fuel, rest.length < fuel →
      compArrayLoop dec
        (offsetTable (4 * es.length) (encElems e es) ++ (encElems e es).flatten)
        0 (4 * es.length) es.length fuel front.length (4 * front.length)
        (4 * es.length + (encElems e front).flatten.length)
      = some (rest, 4 * es.length) := by
  intro rest
  induction rest with
  | nil =>
      intro front hsplit fuel hfuel
      have hfr : front = es := by simpa using hsplit.symm
      subst hfr
      cases fuel with
      | zero => omega
      | succ fuel => rw [compArrayLoop, if_neg (by omega)]
  | cons v rest2 ih =>
      intro front hsplit fuel hfuel
      cases fuel with
      | zero => omega
      | succ fuel =>
        have hL : es.length = front.length + 1 + rest2.length := by
          rw [hsplit]; simp; try omega
        have hencs : encElems e es
            = encElems e front ++ encV e v :: encElems e rest2 := by
          rw [hsplit, encElems_append, encElems]
        have hD : (encElems e es).flatten
            = (encElems e front).flatten ++ encV e v ++ (encElems e rest2).flatten := by
          rw [hencs]
          simp [List.flatten_append, List.append_assoc]
        have hfl : (encElems e front).length = front.length := encElems_length e front
        have hDlen : (encElems e front).flatten.length + (encV e v).length
            ≤ (encElems e es).flatten.length := by
          rw [hD, List.length_append, List.length_append]
          omega
        have hTlen : (offsetTable (4 * es.length) (encElems e es)).length
            = 4 * es.length := by
          rw [offsetTable_length, encElems_length]
        have hInLen : (offsetTable (4 * es.length) (encElems e es)
            ++ (encElems e es).flatten).length
            = 4 * es.length + (encElems e es).flatten.length := by
          rw [List.length_append, hTlen]
        rw [compArrayLoop, if_pos (by omega)]
        have hNO : (if 4 * front.length + 4 = 4 * es.length then
              some (offsetTable (4 * es.length) (encElems e es)
                ++ (encElems e es).flatten).length
            else (readLE (offsetTable (4 * es.length) (encElems e es)
                ++ (encElems e es).flatten) (4 * front.length + 4) 4).map
                  (fun x => 0 + x))
            = some (4 * es.length + ((encElems e front).flatten.length
                + (encV e v).length)) := by
          cases rest2 with
          | nil =>
              simp only [List.length_nil] at hL
              rw [if_pos (by omega), hInLen]
              have hR : (encElems e es).flatten.length
                  = (encElems e front).flatten.length + (encV e v).length := by
                rw [hD]
                simp [encElems]
              rw [hR]
          | cons v2 rest3 =>
              simp only [List.length_cons] at hL
              have hlt : front.length + 1 < es.length := by omega
              rw [if_neg (by omega),
                show 4 * front.length + 4 = 4 * (front.length + 1) by ring,
                readLE_table _ _ _ _ (by rw [encElems_length]; omega)]
              rw [hencs, ← hfl, take_append_cons]
              have hflat2 : ((encElems e front ++ [encV e v]).flatten).length
                  = (encElems e front).flatten.length + (encV e v).length := by
                rw [List.flatten_append, List.length_append]
                simp
              rw [hflat2, Nat.mod_eq_of_lt (by omega)]
              simp [Nat.add_assoc]
        have hmem : v ∈ es := by rw [hsplit]; simp
        rcases Helem v hmem with ⟨k, hk⟩
        have hslice : sliceGo (offsetTable (4 * es.length) (encElems e es)
              ++ (encElems e es).flatten)
            (4 * es.length + (encElems e front).flatten.length)
            (4 * es.length + ((encElems e front).flatten.length + (encV e v).length))
            = encV e v := by
          have h1 := sliceGo_shift (offsetTable (4 * es.length) (encElems e es))
            ((encElems e es).flatten) ((encElems e front).flatten.length)
            ((encElems e front).flatten.length + (encV e v).length)
          rw [hTlen] at h1
          rw [h1, hD]
          exact sliceGo_of_append _ _ _
        simp only [hNO]
        rw [if_pos (by omega), if_pos (by rw [hInLen]; omega)]
        simp only [hslice, hk]
        have hrec := ih (front ++ [v]) (by rw [hsplit]; simp) fuel (by
          simp only [List.length_cons] at hfuel; omega)
        rw [show (front ++ [v]).length = front.length + 1 by simp] at hrec
        rw [show encElems e (front ++ [v]) = encElems e front ++ [encV e v] from by
          rw [encElems_append]; rfl] at hrec
        rw [List.flatten_append, List.length_append,
          show ([encV e v] : List (List Nat)).flatten.length = (encV e v).length from by
            simp] at hrec
        rw [show 4 * (front.length + 1) = 4 * front.length + 4 by ring] at hrec
        simp only [hrec]

theorem compositeArrayUnmarshal_canonical
    {dec : List Nat → Nat → Option (Value × Nat)} {e : Schema} (es : List Value)
    (zeroElem : Value)
    (Helem : ∀ v ∈ es, ∃ k, dec (encV e v) 0 = some (v, k))
    (hlen : 4 * es.length + (encElems e es).flatten.length < 2 ^ 32)
    (hne : es ≠ []) :
    compositeArrayUnmarshal dec zeroElem es.length
      (offsetTable (4 * es.length) (encElems e es) ++ (encElems e es).flatten) 0
      = some (es, 4 * es.length) := by
  have hTlen : (offsetTable (4 * es.length) (encElems e es)).length = 4 * es.length := by
    rw [offsetTable_length, encElems_length]
  have hInLen : (offsetTable (4 * es.length) (encElems e es)
      ++ (encElems e es).flatten).length
      = 4 * es.length + (encElems e es).flatten.length := by
    rw [List.length_append, hTlen]
  have hpos : 1 ≤ es.length := by
    cases es with
    | nil => exact absurd rfl hne
    | cons v es2 => simp
  rw [compositeArrayUnmarshal, if_neg (by omega)]
  have hread : readLE (offsetTable (4 * es.length) (encElems e es)
      ++ (encElems e es).flatten) 0 4 = some (4 * es.length) := by
    have h := readLE_table (4 * es.length) (encElems e es) ((encElems e es).flatten) 0
      (by rw [encElems_length]; omega)
    simp only [Nat.mul_zero, List.take_zero, List.flatten_nil, List.length_nil,
      Nat.add_zero] at h
    rw [h, Nat.mod_eq_of_lt (by omega)]
  simp only [hread]
  have hloop := compArrayLoop_canonical es Helem hlen es [] (by simp)
    ((offsetTable (4 * es.length) (encElems e es) ++ (encElems e es).flatten).length + 8)
    (by omega)
  have hzstart : encElems e ([] : List Value) = [] := by rw [encElems]
  rw [hzstart] at hloop
  simp only [List.flatten_nil, List.length_nil, Nat.add_zero, Nat.mul_zero] at hloop
  rw [show (0 : Nat) + 4 * es.length = 4 * es.length by omega]
  simp only [hloop]
  simp

/-! ## Struct decoding: characterizing the two passes -/

theorem structParts_cons_var {f : Schema} (fs : List Schema) {v : Value} (vs : List Value)
    (off : Nat) (h : isVariableSizeType f = true) :
    structParts (f :: fs) (v :: vs) off
      = (putLE 4 (off % 2 ^ 32) ++ (structParts fs vs (off + (encV f v).length)).1,
         encV f v ++ (structParts fs vs (off + (encV f v).length)).2) := by
  rw [structParts, if_pos h]

theorem structParts_cons_fix {f : Schema} (fs : List Schema) {v : Value} (vs : List Value)
    (off : Nat) (h : isVariableSizeType f = false) :
    structParts (f :: fs) (v :: vs) off
      = (encV f v ++ (structParts fs vs off).1, (structParts fs vs off).2) := by
  rw [structParts, if_neg (by simp [h])]

theorem structParts_snd_eq_varSec (fs : List Schema) (vs : List Value) (off : Nat) :
    (structParts fs vs off).2 = varSec fs vs := by
  induction fs generalizing vs off with
  | nil => cases vs <;> rfl
  | cons f gs ih =>
      cases vs with
      | nil => rfl
      | cons v ws =>
          cases h : isVariableSizeType f with
          | true => rw [structParts_cons_var _ _ _ h, varSec, if_pos h, ih]
          | false =>
              rw [structParts_cons_fix _ _ _ h, varSec, if_neg (by simp [h]), ih,
                List.nil_append]

theorem varOffsetsF_nil_anyVar {fs : List Schema} {vs : List Value} {b : Nat}
    (hwt : WTFields fs vs = true) (h : varOffsetsF fs vs b = []) :
    anyVariable fs = false := by
  induction fs generalizing vs b with
  | nil => simp [anyVariable]
  | cons f gs ih =>
      cases vs with
      | nil => simp [WTFields] at hwt
      | cons v ws =>
          simp only [WTFields, Bool.and_eq_true] at hwt
          cases hv : isVariableSizeType f with
          | true => rw [varOffsetsF, if_pos hv] at h; cases h
          | false =>
              rw [varOffsetsF, if_neg (by simp [hv])] at h
              simp [anyVariable, hv, ih hwt.2 h]

theorem varOffsetsF_head {fs : List Schema} {vs : List Value} {b : Nat}
    (h : varOffsetsF fs vs b ≠ []) :
    ∃ t, varOffsetsF fs vs b = b :: t := by
  induction fs generalizing vs b with
  | nil => cases vs <;> simp [varOffsetsF] at h
  | cons f gs ih =>
      cases vs with
      | nil => simp [varOffsetsF] at h
      | cons v ws =>
          cases hv : isVariableSizeType f with
          | true =>
              rw [varOffsetsF, if_pos hv]
              exact ⟨_, rfl⟩
          | false =>
              rw [varOffsetsF, if_neg (by simp [hv])] at h ⊢
              exact ih h

theorem varSec_len_no_var {fs : List Schema} {vs : List Value}
    (h : anyVariable fs = false) : varSec fs vs = [] := by
  induction fs generalizing vs with
  | nil => cases vs <;> rfl
  | cons f gs ih =>
      cases vs with
      | nil => rfl
      | cons v ws =>
          simp only [anyVariable, Bool.or_eq_false_iff] at h
          rw [varSec, if_neg (by simp [h.1]), ih h.2, List.nil_append]

theorem fieldFixedSizes_cons (f : Schema) (fs : List Schema) :
    fieldFixedSizes (f :: fs)
      = (if isVariableSizeType f then none else some (fixedSize f)) :: fieldFixedSizes fs := by
  rfl

theorem collectOffsets_canonical (I : List Nat) :
    ∀ (fs : List Schema) (vs : List Value) (A rest : List Nat) (base : Nat),
      I = A ++ (structParts fs vs base).1 ++ rest →
      WTFields fs vs = true → NoNullList vs = true →
      base + (varSec fs vs).length ≤ I.length →
      I.length < 2 ^ 32 →
      collectOffsets I 0 (fieldFixedSizes fs) A.length = varOffsetsF fs vs base := by
  intro fs
  induction fs with
  | nil =>
      intro vs A rest base hI hwt hnn hb hlen
      cases vs with
      | nil => rfl
      | cons v ws => simp [WTFields] at hwt
  | cons f gs ih =>
      intro vs A rest base hI hwt hnn hb hlen
      cases vs with
      | nil => simp [WTFields] at hwt
      | cons v ws =>
          simp only [WTFields, Bool.and_eq_true] at hwt
          simp only [NoNullList, Bool.and_eq_true] at hnn
          rw [fieldFixedSizes_cons]
          by_cases hv : isVariableSizeType f = true
          · rw [structParts_cons_var _ _ _ hv] at hI
            rw [varSec, if_pos hv, List.length_append] at hb
            rw [if_pos hv, collectOffsets]
            have hIlen : A.length + 4 ≤ I.length := by
              rw [hI]
              simp only [List.length_append, putLE_length]
              omega
            rw [if_neg (by omega)]
            have hIassoc : I = A ++ putLE 4 (base % 2 ^ 32)
                ++ ((structParts gs ws (base + (encV f v).length)).1 ++ rest) := by
              rw [hI]
              simp [List.append_assoc]
            have hslice : sliceGo I A.length (A.length + 4)
                = putLE 4 (base % 2 ^ 32) := by
              have h := sliceGo_of_append A (putLE 4 (base % 2 ^ 32))
                ((structParts gs ws (base + (encV f v).length)).1 ++ rest)
              rw [putLE_length] at h
              rw [hIassoc]
              exact h
            have hbase : base < 2 ^ 32 := by omega
            rw [hslice, fromLE_putLE, show (256 : Nat) ^ 4 = 2 ^ 32 by norm_num,
              Nat.mod_mod_of_dvd _ dvd_rfl, Nat.mod_eq_of_lt hbase]
            rw [varOffsetsF, if_pos hv, Nat.zero_add]
            have hrec := ih ws (A ++ putLE 4 (base % 2 ^ 32)) rest
              (base + (encV f v).length) (by
                rw [hIassoc]
                simp [List.append_assoc]) hwt.2 hnn.2 (by omega) hlen
            rw [List.length_append, putLE_length] at hrec
            rw [hrec]
          · replace hv : isVariableSizeType f = false := by
              cases hq : isVariableSizeType f
              · rfl
              · exact absurd hq hv
            rw [structParts_cons_fix _ _ _ hv] at hI
            rw [varSec, if_neg (by simp [hv]), List.nil_append] at hb
            rw [if_neg (by simp [hv]), collectOffsets]
            rw [varOffsetsF, if_neg (by simp [hv])]
            have hsz : (encV f v).length = fixedSize f :=
              encLenFixed hv hwt.1 hnn.1
            have hrec := ih ws (A ++ encV f v) rest base (by
                rw [hI]
                simp [List.append_assoc]) hwt.2 hnn.2 hb hlen
            rw [List.length_append, hsz] at hrec
            rw [hrec]

theorem structLoopTail (I : List Nat) (offsets : List Nat) :
    ∀ (fs : List Schema) (vs : List Value) (Pdone T : List Nat) (oi : Nat),
      WTFields fs vs = true → GoodFields fs = true → NoNullList vs = true →
      (∀ f v, f ∈ fs → isVariableSizeType f = false → WT f v = true →
        Good f = true → NoNull v = true →
        decodeV f (encV f v) 0 = some (v, (encV f v).length)) →
      I = Pdone ++ (structParts fs vs I.length).1 ++ T →
      (structParts fs vs I.length).2 = [] →
      offsets.get? oi = some I.length →
      structFieldsLoop fs I offsets oi Pdone.length
        = some (vs, Pdone.length + (structParts fs vs I.length).1.length) := by
  intro fs
  induction fs with
  | nil =>
      intro vs Pdone T oi hwt hg hnn Hfix hI hsnd hoi
      cases vs with
      | nil => simp [structFieldsLoop, structParts]
      | cons v ws => simp [WTFields] at hwt
  | cons f gs ih =>
      intro vs Pdone T oi hwt hg hnn Hfix hI hsnd hoi
      cases vs with
      | nil => simp [WTFields] at hwt
      | cons v ws =>
          simp only [WTFields, Bool.and_eq_true] at hwt
          simp only [GoodFields, Bool.and_eq_true] at hg
          simp only [NoNullList, Bool.and_eq_true] at hnn
          by_cases hv : isVariableSizeType f = true
          · rw [structParts_cons_var _ _ _ hv] at hI hsnd ⊢
            have henc : encV f v = [] := (List.append_eq_nil.mp hsnd).1
            have hsnd2 : (structParts gs ws I.length).2 = [] := by
              have h2 := (List.append_eq_nil.mp hsnd).2
              rw [henc] at h2
              simpa using h2
            have hzv : v = zeroValue f :=
              zeroOfVarEmptyEnc hv hwt.1 hg.1 hnn.1 (by rw [henc]; rfl)
            have hP1 : (structParts gs ws (I.length + (encV f v).length)).1
                = (structParts gs ws I.length).1 := by
              rw [henc]
              simp
            rw [hP1] at hI ⊢
            rw [structFieldsLoop, if_pos hv, hoi]
            simp only [if_pos rfl]
            have hrec := ih ws (Pdone ++ putLE 4 (I.length % 2 ^ 32)) T oi
              hwt.2 hg.2 hnn.2
              (fun g w hgm => Hfix g w (List.mem_cons_of_mem _ hgm))
              (by
                conv_lhs => rw [hI]
                simp [List.append_assoc]) hsnd2 hoi
            rw [List.length_append, putLE_length] at hrec
            simp only [hrec, ← hzv]
            simp [putLE_length, Nat.add_assoc]
          · have hvf : isVariableSizeType f = false := by
              cases hq : isVariableSizeType f
              · rfl
              · exact absurd hq hv
            rw [structParts_cons_fix _ _ _ hvf] at hI hsnd ⊢
            have hsz : (encV f v).length = fixedSize f :=
              encLenFixed hvf hwt.1 hnn.1
            by_cases hz : fixedSize f = 0
            · have hzv : v = zeroValue f := zeroOfFixedSizeZero hvf hz hwt.1 hnn.1
              have henc : encV f v = [] := by
                rw [← List.length_eq_zero, hsz, hz]
              rw [structFieldsLoop, if_neg (by simp [hvf]), if_pos hz]
              have hrec := ih ws Pdone T oi hwt.2 hg.2 hnn.2
                (fun g w hgm => Hfix g w (List.mem_cons_of_mem _ hgm))
                (by
                  conv_lhs => rw [hI]
                  rw [henc]
                  simp) hsnd hoi
              simp only [hrec, ← hzv]
              rw [henc]
              simp
            · rw [structFieldsLoop, if_neg (by simp [hvf]), if_neg hz]
              have hblen : Pdone.length + fixedSize f ≤ I.length := by
                conv_rhs => rw [hI]
                simp only [List.length_append]
                omega
              rw [if_pos hblen]
              have hIassoc : I = Pdone ++ encV f v
                  ++ ((structParts gs ws I.length).1 ++ T) := by
                conv_lhs => rw [hI]
                simp [List.append_assoc]
              have hslice : sliceGo I Pdone.length (Pdone.length + fixedSize f)
                  = encV f v := by
                have h := sliceGo_of_append Pdone (encV f v)
                  ((structParts gs ws I.length).1 ++ T)
                rw [hsz] at h
                rw [hIassoc]
                exact h
              rw [hslice]
              have hdec := Hfix f v (List.mem_cons_self _ _) hvf hwt.1 hg.1 hnn.1
              simp only [hdec]
              have hrec := ih ws (Pdone ++ encV f v) T oi hwt.2 hg.2 hnn.2
                (fun g w hgm => Hfix g w (List.mem_cons_of_mem _ hgm))
                (by
                  conv_lhs => rw [hIassoc]
                  simp [List.append_assoc]) hsnd hoi
              rw [List.length_append, hsz] at hrec
              simp only [hrec]
              simp [List.length_append, hsz, Nat.add_assoc]

theorem structLoopMain (I : List Nat) (offsets : List Nat) :
    ∀ (fs : List Schema) (vs : List Value) (Pdone Qdone : List Nat) (oi vb : Nat),
      WTFields fs vs = true → GoodFields fs = true → NoNullList vs = true →
      (∀ f v, f ∈ fs → isVariableSizeType f = false → WT f v = true →
        Good f = true → NoNull v = true →
        decodeV f (encV f v) 0 = some (v, (encV f v).length)) →
      (∀ f v, f ∈ fs → isVariableSizeType f = true → WT f v = true →
        Good f = true → NoNull v = true → (encV f v).length < 2 ^ 32 →
        ∃ k, decodeV f (encV f v) 0 = some (v, k)) →
      I = Pdone ++ (structParts fs vs vb).1 ++ Qdone ++ (structParts fs vs vb).2 →
      vb = Pdone.length + (structParts fs vs vb).1.length + Qdone.length →
      (∀ j, offsets.get? (oi + j) = (varOffsetsF fs vs vb ++ [I.length]).get? j) →
      I.length < 2 ^ 32 →
      structFieldsLoop fs I offsets oi Pdone.length
        = some (vs, Pdone.length + (structParts fs vs vb).1.length) := by
  intro fs
  induction fs with
  | nil =>
      intro vs Pdone Qdone oi vb hwt hg hnn Hfix Hvar hI hvb hcorr hIlen
      cases vs with
      | nil => simp [structFieldsLoop, structParts]
      | cons v ws => simp [WTFields] at hwt
  | cons f gs ih =>
      intro vs Pdone Qdone oi vb hwt hg hnn Hfix Hvar hI hvb hcorr hIlen
      cases vs with
      | nil => simp [WTFields] at hwt
      | cons v ws =>
          simp only [WTFields, Bool.and_eq_true] at hwt
          simp only [GoodFields, Bool.and_eq_true] at hg
          simp only [NoNullList, Bool.and_eq_true] at hnn
          by_cases hv : isVariableSizeType f = true
          · rw [structParts_cons_var _ _ _ hv] at hI hvb ⊢
            rw [List.length_append, putLE_length] at hvb
            have hQlen : I.length = vb + (encV f v).length
                + (structParts gs ws (vb + (encV f v).length)).2.length := by
              conv_lhs => rw [hI]
              simp only [List.length_append, putLE_length]
              omega
            have h0 : offsets.get? oi = some vb := by
              have h := hcorr 0
              rw [Nat.add_zero] at h
              rw [h, varOffsetsF, if_pos hv]
              rfl
            rw [structFieldsLoop, if_pos hv, h0]
            by_cases heq : vb = I.length
            · have hrest0 : (encV f v).length = 0
                  ∧ (structParts gs ws (vb + (encV f v).length)).2.length = 0 := by
                omega
              have henc : encV f v = [] := List.length_eq_zero.mp hrest0.1
              have hzv : v = zeroValue f :=
                zeroOfVarEmptyEnc hv hwt.1 hg.1 hnn.1 hrest0.1
              have hsnd2 : (structParts gs ws I.length).2 = [] := by
                have h2 := List.length_eq_zero.mp hrest0.2
                rw [hrest0.1, Nat.add_zero, heq] at h2
                exact h2
              simp only [if_pos heq]
              have hP1 : (structParts gs ws (vb + (encV f v).length)).1
                  = (structParts gs ws I.length).1 := by
                rw [henc]
                simp [← heq]
              have hsndvb : (structParts gs ws vb).2 = [] := by
                rw [heq]
                exact hsnd2
              have htail := structLoopTail I offsets gs ws
                (Pdone ++ putLE 4 (vb % 2 ^ 32)) Qdone oi
                hwt.2 hg.2 hnn.2
                (fun g w hgm => Hfix g w (List.mem_cons_of_mem _ hgm))
                (by
                  conv_lhs => rw [hI]
                  rw [hP1, henc]
                  simp [List.append_assoc, hsndvb]) hsnd2 (by rw [h0, heq])
              rw [List.length_append, putLE_length] at htail
              simp only [htail, ← hzv, hP1]
              simp [putLE_length, Nat.add_assoc]
            · have hlt : vb < I.length := by omega
              have hnext : offsets.get? (oi + 1)
                  = some (vb + (encV f v).length) := by
                have h := hcorr 1
                rw [h, varOffsetsF, if_pos hv]
                cases hvo : varOffsetsF gs ws (vb + (encV f v).length) with
                | nil =>
                    have hnovar : anyVariable gs = false :=
                      varOffsetsF_nil_anyVar hwt.2 hvo
                    have hsnd2 : (structParts gs ws (vb + (encV f v).length)).2 = [] := by
                      rw [structParts_snd_eq_varSec, varSec_len_no_var hnovar]
                    have hIl : I.length = vb + (encV f v).length := by
                      rw [hsnd2] at hQlen
                      simpa using hQlen
                    rw [← hIl]
                    rfl
                | cons x t =>
                    have hne : varOffsetsF gs ws (vb + (encV f v).length) ≠ [] := by
                      rw [hvo]
                      exact List.cons_ne_nil x t
                    rcases varOffsetsF_head hne with ⟨t2, ht2⟩
                    rw [hvo] at ht2
                    injection ht2 with hx ht
                    rw [hx]
                    rfl
              have hA : ¬ I.length < vb + (encV f v).length := by omega
              have hB : vb ≤ vb + (encV f v).length := Nat.le_add_right _ _
              have hIassoc : I = (Pdone ++ putLE 4 (vb % 2 ^ 32)
                    ++ (structParts gs ws (vb + (encV f v).length)).1 ++ Qdone)
                  ++ encV f v ++ (structParts gs ws (vb + (encV f v).length)).2 := by
                conv_lhs => rw [hI]
                simp [List.append_assoc]
              have hA'len : (Pdone ++ putLE 4 (vb % 2 ^ 32)
                  ++ (structParts gs ws (vb + (encV f v).length)).1 ++ Qdone).length
                  = vb := by
                simp only [List.length_append, putLE_length]
                omega
              have hslice : sliceGo I vb (vb + (encV f v).length) = encV f v := by
                have h := sliceGo_of_append (Pdone ++ putLE 4 (vb % 2 ^ 32)
                    ++ (structParts gs ws (vb + (encV f v).length)).1 ++ Qdone)
                  (encV f v) ((structParts gs ws (vb + (encV f v).length)).2)
                rw [hA'len] at h
                rw [hIassoc]
                exact h
              rcases Hvar f v (List.mem_cons_self _ _) hv hwt.1 hg.1 hnn.1
                (by omega) with ⟨k, hk⟩
              have hrec := ih ws (Pdone ++ putLE 4 (vb % 2 ^ 32))
                (Qdone ++ encV f v) (oi + 1) (vb + (encV f v).length)
                hwt.2 hg.2 hnn.2
                (fun g w hgm => Hfix g w (List.mem_cons_of_mem _ hgm))
                (fun g w hgm => Hvar g w (List.mem_cons_of_mem _ hgm))
                (by
                  conv_lhs => rw [hI]
                  simp [List.append_assoc])
                (by
                  simp only [List.length_append, putLE_length]
                  omega)
                (by
                  intro j
                  have h := hcorr (1 + j)
                  rw [← Nat.add_assoc] at h
                  rw [h, varOffsetsF, if_pos hv, List.cons_append,
                    Nat.add_comm 1 j, List.get?_cons_succ])
                hIlen
              rw [List.length_append, putLE_length] at hrec
              simp only [if_neg heq, hnext, if_neg hA, if_pos hB, hslice, hk, hrec]
              simp [putLE_length, Nat.add_assoc]
          · have hvf : isVariableSizeType f = false := by
              cases hq : isVariableSizeType f
              · rfl
              · exact absurd hq hv
            rw [structParts_cons_fix _ _ _ hvf] at hI hvb ⊢
            have hsz : (encV f v).length = fixedSize f :=
              encLenFixed hvf hwt.1 hnn.1
            have hcorr2 : ∀ j, offsets.get? (oi + j)
                = (varOffsetsF gs ws vb ++ [I.length]).get? j := by
              intro j
              rw [hcorr j, varOffsetsF, if_neg (by simp [hvf])]
            by_cases hz : fixedSize f = 0
            · have hzv : v = zeroValue f := zeroOfFixedSizeZero hvf hz hwt.1 hnn.1
              have henc : encV f v = [] := by
                rw [← List.length_eq_zero, hsz, hz]
              rw [structFieldsLoop, if_neg (by simp [hvf]), if_pos hz]
              have hrec := ih ws Pdone Qdone oi vb hwt.2 hg.2 hnn.2
                (fun g w hgm => Hfix g w (List.mem_cons_of_mem _ hgm))
                (fun g w hgm => Hvar g w (List.mem_cons_of_mem _ hgm))
                (by
                  conv_lhs => rw [hI]
                  rw [henc]
                  simp)
                (by
                  rw [henc] at hvb
                  simpa using hvb)
                hcorr2 hIlen
              simp only [hrec, ← hzv]
              rw [henc]
              simp
            · rw [structFieldsLoop, if_neg (by simp [hvf]), if_neg hz]
              have hblen : Pdone.length + fixedSize f ≤ I.length := by
                conv_rhs => rw [hI]
                simp only [List.length_append]
                omega
              rw [if_pos hblen]
              have hIassoc : I = Pdone ++ encV f v
                  ++ ((structParts gs ws vb).1 ++ Qdone ++ (structParts gs ws vb).2) := by
                conv_lhs => rw [hI]
                simp [List.append_assoc]
              have hslice : sliceGo I Pdone.length (Pdone.length + fixedSize f)
                  = encV f v := by
                have h := sliceGo_of_append Pdone (encV f v)
                  ((structParts gs ws vb).1 ++ Qdone ++ (structParts gs ws vb).2)
                rw [hsz] at h
                rw [hIassoc]
                exact h
              rw [hslice]
              have hdec := Hfix f v (List.mem_cons_self _ _) hvf hwt.1 hg.1 hnn.1
              simp only [hdec]
              have hrec := ih ws (Pdone ++ encV f v) Qdone oi vb hwt.2 hg.2 hnn.2
                (fun g w hgm => Hfix g w (List.mem_cons_of_mem _ hgm))
                (fun g w hgm => Hvar g w (List.mem_cons_of_mem _ hgm))
                (by
                  conv_lhs => rw [hIassoc]
                  simp [List.append_assoc])
                (by
                  simp only [List.length_append, hsz] at hvb ⊢
                  omega)
                hcorr2 hIlen
              rw [List.length_append, hsz] at hrec
              simp only [hrec]
              simp [List.length_append, hsz, Nat.add_assoc]

theorem elem_len_le_flatten {e : Schema} {vs : List Value} {v : Value}
    (h : v ∈ vs) : (encV e v).length ≤ (encElems e vs).flatten.length := by
  induction vs with
  | nil => cases h
  | cons w ws ih =>
      rcases List.mem_cons.mp h with h1 | h2
      · subst h1
        simp [encElems]
      · simp only [encElems, List.flatten_cons, List.length_append]
        exact Nat.le_add_left _ _ |>.trans (Nat.add_le_add_left (ih h2) _) |>.trans
          (Nat.le_refl _) |>.trans (Nat.le_refl _) |>.trans (Nat.le_refl _)

theorem structParts_fst_base {fs : List Schema} (hva : anyVariable fs = false) :
    ∀ (vs : List Value) (b b2 : Nat),
      (structParts fs vs b).1 = (structParts fs vs b2).1 := by
  induction fs with
  | nil =>
      intro vs b b2
      cases vs <;> rfl
  | cons f gs ih =>
      intro vs b b2
      simp only [anyVariable, Bool.or_eq_false_iff] at hva
      cases vs with
      | nil => rfl
      | cons v ws =>
          rw [structParts_cons_fix _ _ _ hva.1, structParts_cons_fix _ _ _ hva.1,
            ih hva.2 ws b b2]

theorem collectOffsets_allFixed {fs : List Schema} (hva : anyVariable fs = false) :
    ∀ (input : List Nat) (start counter : Nat),
      collectOffsets input start (fieldFixedSizes fs) counter = [] := by
  induction fs with
  | nil =>
      intro input start counter
      rfl
  | cons f gs ih =>
      intro input start counter
      simp only [anyVariable, Bool.or_eq_false_iff] at hva
      rw [fieldFixedSizes_cons, if_neg (by simp [hva.1]), collectOffsets]
      exact ih hva.2 input start _

theorem decOKAux : ∀ N s v, schemaDepth s ≤ N → WT s v = true → Good s = true →
    NoNull v = true →
    ((isVariableSizeType s = false →
      ∀ pre post : List Nat, decodeV s (pre ++ encV s v ++ post) pre.length
        = some (v, pre.length + (encV s v).length))
     ∧ (isVariableSizeType s = true → (encV s v).length < 2 ^ 32 →
      ∃ k, decodeV s (encV s v) 0 = some (v, k))) := by
  intro N
  induction N with
  | zero =>
      intro s v hd
      exact absurd hd (by cases s <;> (simp only [schemaDepth]; omega))
  | succ N ih =>
      intro s v hd hwt hg hnn
      cases s with
      | bool =>
          cases v
          case bool b =>
            exact ⟨fun _ pre post => decodeBool_pos b pre post,
              fun hv _ => by simp [isVariableSizeType] at hv⟩
          all_goals exact absurd hwt (by simp [WT])
      | uint w =>
          cases v
          case uint n =>
            simp only [WT, Bool.and_eq_true, decide_eq_true_eq] at hwt
            exact ⟨fun _ pre post => decodeUint_pos w n hwt.2 pre post,
              fun hv _ => by simp [isVariableSizeType] at hv⟩
          all_goals exact absurd hwt (by simp [WT])
      | byteList =>
          cases v
          case bytes bs =>
            refine ⟨fun hv => ?_, fun _ _ => ⟨bs.length, ?_⟩⟩
            · simp [isVariableSizeType] at hv
            · simp [decodeV, encV]
          all_goals exact absurd hwt (by simp [WT])
      | vector n e =>
          cases v
          case vector ws =>
            simp only [WT, Bool.and_eq_true, decide_eq_true_eq] at hwt
            simp only [Good, Bool.and_eq_true] at hg
            simp only [NoNull] at hnn
            simp only [schemaDepth] at hd
            have hde : schemaDepth e ≤ N := by omega
            obtain ⟨hn, hwtel⟩ := hwt
            subst hn
            constructor
            · intro hvf pre post
              have he : isVariableSizeType e = false := by
                simpa [isVariableSizeType] using hvf
              have henc : encV (.vector ws.length e) (.vector ws)
                  = (encElems e ws).flatten := by
                simp [encV, he]
              have H : ∀ w ∈ ws, ∀ p q : List Nat,
                  decodeV e (p ++ encV e w ++ q) p.length
                    = some (w, p.length + (encV e w).length) := by
                intro w hw p q
                exact (ih e w hde (WTElems_mem hwtel hw) hg.2 (NoNullList_mem hnn hw)).1
                  he p q
              have hseq := decodeSeq_pos ws H pre post
              have hef : ¬ (isVariableSizeType e = true) := by simp [he]
              rw [henc]
              simp only [decodeV, if_neg hef, hseq]
            · intro hvt hlen
              have he : isVariableSizeType e = true := by
                simpa [isVariableSizeType] using hvt
              have henc : encV (.vector ws.length e) (.vector ws)
                  = offsetTable (4 * ws.length) (encElems e ws)
                    ++ (encElems e ws).flatten := by
                simp [encV, he]
              rw [henc] at hlen ⊢
              have hlen2 : 4 * ws.length + (encElems e ws).flatten.length < 2 ^ 32 := by
                rw [List.length_append, offsetTable_length, encElems_length] at hlen
                exact hlen
              have Helem : ∀ w ∈ ws, ∃ k, decodeV e (encV e w) 0 = some (w, k) := by
                intro w hw
                refine (ih e w hde (WTElems_mem hwtel hw) hg.2 (NoNullList_mem hnn hw)).2
                  he ?_
                have := elem_len_le_flatten (e := e) hw
                omega
              have hpos : 1 ≤ ws.length := by
                have h1 := hg.1
                rw [he] at h1
                simpa using h1
              have hne : ws ≠ [] := by
                cases ws
                · simp at hpos
                · exact List.cons_ne_nil _ _
              have hcan := compositeArrayUnmarshal_canonical ws (zeroValue e)
                Helem hlen2 hne
              exact ⟨4 * ws.length, by simp only [decodeV, if_pos he, hcan]⟩
          all_goals exact absurd hwt (by simp [WT])
      | list e =>
          cases v
          case list ws =>
            simp only [WT] at hwt
            simp only [Good, Bool.and_eq_true] at hg
            simp only [NoNull] at hnn
            simp only [schemaDepth] at hd
            have hde : schemaDepth e ≤ N := by omega
            constructor
            · intro hvf
              simp [isVariableSizeType] at hvf
            · intro _ hlen
              by_cases he : isVariableSizeType e = true
              · have henc : encV (.list e) (.list ws)
                    = offsetTable (4 * ws.length) (encElems e ws)
                      ++ (encElems e ws).flatten := by
                  simp [encV, he]
                rw [henc] at hlen ⊢
                rcases eq_or_ne ws [] with hnil | hne
                · subst hnil
                  exact ⟨0, by simp only [decodeV, if_pos he]; rfl⟩
                · have hlen2 : 4 * ws.length
                      + (encElems e ws).flatten.length < 2 ^ 32 := by
                    rw [List.length_append, offsetTable_length, encElems_length] at hlen
                    exact hlen
                  have Helem : ∀ w ∈ ws, ∃ k, decodeV e (encV e w) 0 = some (w, k) := by
                    intro w hw
                    refine (ih e w hde (WTElems_mem hwt hw) hg.2
                      (NoNullList_mem hnn hw)).2 he ?_
                    have := elem_len_le_flatten (e := e) hw
                    omega
                  have hcan := compositeSliceUnmarshal_canonical ws (zeroValue e)
                    Helem hlen2 hne
                  exact ⟨4 * ws.length, by simp only [decodeV, if_pos he, hcan]⟩
              · have he2 : isVariableSizeType e = false := by
                  cases hq : isVariableSizeType e
                  · rfl
                  · exact absurd hq he
                have hm : 0 < fixedSize e := by
                  have h1 := hg.1
                  rw [he2] at h1
                  simpa using h1
                have henc : encV (.list e) (.list ws) = (encElems e ws).flatten := by
                  simp [encV, he2]
                rw [henc]
                have hconst : ∀ w ∈ ws, (encV e w).length = fixedSize e :=
                  fun w hw => encLenFixed he2 (WTElems_mem hwt hw) (NoNullList_mem hnn hw)
                have hef : ¬ (isVariableSizeType e = true) := by simp [he2]
                cases ws with
                | nil => exact ⟨0, by simp only [decodeV, if_neg hef]; rfl⟩
                | cons v0 rest =>
                    have hv0m : (encV e v0).length = fixedSize e :=
                      hconst v0 (List.mem_cons_self _ _)
                    have hflat : (encElems e (v0 :: rest)).flatten
                        = encV e v0 ++ (encElems e rest).flatten := by
                      simp [encElems]
                    have h0 : decodeV e ((encElems e (v0 :: rest)).flatten) 0
                        = some (v0, (encV e v0).length) := by
                      have h := (ih e v0 hde (WTElems_mem hwt (List.mem_cons_self _ _))
                        hg.2 (NoNullList_mem hnn (List.mem_cons_self _ _))).1 he2
                        [] ((encElems e rest).flatten)
                      simpa [hflat] using h
                    have H : ∀ w ∈ rest, ∀ p q : List Nat,
                        decodeV e (p ++ encV e w ++ q) p.length
                          = some (w, p.length + (encV e w).length) := by
                      intro w hw p q
                      exact (ih e w hde (WTElems_mem hwt (List.mem_cons_of_mem _ hw))
                        hg.2 (NoNullList_mem hnn (List.mem_cons_of_mem _ hw))).1 he2 p q
                    have hseq : decodeSeq (decodeV e) rest.length
                        ((encElems e (v0 :: rest)).flatten) (fixedSize e)
                        = some (rest, fixedSize e + (encElems e rest).flatten.length) := by
                      have h := decodeSeq_pos rest H (encV e v0) []
                      rw [hv0m] at h
                      simpa [hflat] using h
                    have hflatlen : (encElems e (v0 :: rest)).flatten.length
                        = (rest.length + 1) * fixedSize e := by
                      rw [flatten_len_of_const hconst]
                      simp [List.length_cons]
                    have hnz : ¬ (encElems e (v0 :: rest)).flatten.length = 0 := by
                      rw [hflatlen]
                      exact Nat.mul_ne_zero (by omega) (by omega)
                    have hcnt : (encElems e (v0 :: rest)).flatten.length / fixedSize e
                        = rest.length + 1 := by
                      rw [hflatlen]
                      exact Nat.mul_div_cancel _ hm
                    have hmne : ¬ fixedSize e = 0 := by omega
                    have hbasic : basicSliceUnmarshal (decodeV e)
                        ((encElems e (v0 :: rest)).flatten) 0
                        = some (v0 :: rest,
                            fixedSize e + (encElems e rest).flatten.length) := by
                      simp only [basicSliceUnmarshal, if_neg hnz, h0, Nat.sub_zero,
                        hv0m, if_neg hmne, hcnt, Nat.add_sub_cancel, hseq]
                    exact ⟨fixedSize e + (encElems e rest).flatten.length,
                      by simp only [decodeV, if_neg hef, hbasic]⟩
          all_goals exact absurd hwt (by simp [WT])
      | container fs =>
          cases v
          case null => simp [NoNull] at hnn
          case container ws =>
            simp only [WT] at hwt
            simp only [Good] at hg
            simp only [NoNull] at hnn
            simp only [schemaDepth] at hd
            have hdf : ∀ f ∈ fs, schemaDepth f ≤ N := by
              intro f hf
              have := depth_le_of_mem hf
              omega
            have HfixDec : ∀ f v, f ∈ fs → isVariableSizeType f = false → WT f v = true →
                Good f = true → NoNull v = true →
                decodeV f (encV f v) 0 = some (v, (encV f v).length) := by
              intro f v hf hvf hw hgd hn
              have h := (ih f v (hdf f hf) hw hgd hn).1 hvf [] []
              simpa using h
            have HvarDec : ∀ f v, f ∈ fs → isVariableSizeType f = true → WT f v = true →
                Good f = true → NoNull v = true → (encV f v).length < 2 ^ 32 →
                ∃ k, decodeV f (encV f v) 0 = some (v, k) := by
              intro f v hf hvf hw hgd hn hb
              exact (ih f v (hdf f hf) hw hgd hn).2 hvf hb
            have henc : encV (.container fs) (.container ws)
                = (structParts fs ws (structFixedLen fs)).1
                  ++ (structParts fs ws (structFixedLen fs)).2 := by
              simp [encV]
            constructor
            · intro hvf pre post
              have hva : anyVariable fs = false := by
                simpa [isVariableSizeType] using hvf
              have hsnd : (structParts fs ws (structFixedLen fs)).2 = [] :=
                structParts_snd_of_allFixed fs ws _ hva
              have hsnd2 : (structParts fs ws
                  (pre ++ encV (.container fs) (.container ws) ++ post).length).2 = [] :=
                structParts_snd_of_allFixed fs ws _ hva
              have hI : pre ++ encV (.container fs) (.container ws) ++ post
                  = pre ++ (structParts fs ws
                      (pre ++ encV (.container fs) (.container ws) ++ post).length).1
                    ++ post := by
                conv_lhs => rw [henc, hsnd, List.append_nil,
                  structParts_fst_base hva ws (structFixedLen fs)
                    (pre ++ encV (.container fs) (.container ws) ++ post).length]
              have hco : collectOffsets
                  (pre ++ encV (.container fs) (.container ws) ++ post) pre.length
                  (fieldFixedSizes fs) pre.length = [] :=
                collectOffsets_allFixed hva _ _ _
              have htail := structLoopTail
                (pre ++ encV (.container fs) (.container ws) ++ post)
                [(pre ++ encV (.container fs) (.container ws) ++ post).length]
                fs ws pre post 0 hwt hg hnn HfixDec hI hsnd2 rfl
              have hAlen : (encV (.container fs) (.container ws)).length
                  = (structParts fs ws
                      (pre ++ encV (.container fs) (.container ws) ++ post).length).1.length := by
                conv_lhs => rw [henc, hsnd, List.append_nil,
                  structParts_fst_base hva ws (structFixedLen fs)
                    (pre ++ encV (.container fs) (.container ws) ++ post).length]
              conv_rhs => rw [hAlen]
              simp only [decodeV, hco, List.nil_append, htail]
            · intro hvt hlen
              have hva : anyVariable fs = true := by
                simpa [isVariableSizeType] using hvt
              rw [henc] at hlen ⊢
              have hfstlen : (structParts fs ws (structFixedLen fs)).1.length
                  = structFixedLen fs :=
                structParts_fst_len fs ws _ hwt hnn
                  (fun f v _ hv hw hn => encLenFixed hv hw hn)
              have hsndvar : (structParts fs ws (structFixedLen fs)).2
                  = varSec fs ws :=
                structParts_snd_eq_varSec fs ws _
              have hco := collectOffsets_canonical
                ((structParts fs ws (structFixedLen fs)).1
                  ++ (structParts fs ws (structFixedLen fs)).2)
                fs ws [] ((structParts fs ws (structFixedLen fs)).2)
                (structFixedLen fs) (by simp) hwt hnn
                (by
                  rw [List.length_append, hfstlen, hsndvar])
                hlen
              simp only [List.length_nil] at hco
              have hmain := structLoopMain
                ((structParts fs ws (structFixedLen fs)).1
                  ++ (structParts fs ws (structFixedLen fs)).2)
                (varOffsetsF fs ws (structFixedLen fs)
                  ++ [((structParts fs ws (structFixedLen fs)).1
                    ++ (structParts fs ws (structFixedLen fs)).2).length])
                fs ws [] [] 0 (structFixedLen fs) hwt hg hnn HfixDec HvarDec
                (by simp)
                (by simp [hfstlen])
                (fun j => by rw [Nat.zero_add])
                hlen
              simp only [List.length_nil] at hmain
              exact ⟨(structParts fs ws (structFixedLen fs)).1.length,
                by
                  simp only [decodeV, hco, hmain]
                  simp⟩
          all_goals exact absurd hwt (by simp [WT])

theorem decOK_fixed {s : Schema} {v : Value} (hv : isVariableSizeType s = false)
    (hwt : WT s v = true) (hg : Good s = true) (hnn : NoNull v = true)
    (pre post : List Nat) :
    decodeV s (pre ++ encV s v ++ post) pre.length
      = some (v, pre.length + (encV s v).length) :=
  (decOKAux (schemaDepth s) s v le_rfl hwt hg hnn).1 hv pre post

theorem decOK_var {s : Schema} {v : Value} (hv : isVariableSizeType s = true)
    (hwt : WT s v = true) (hg : Good s = true) (hnn : NoNull v = true)
    (hlen : (encV s v).length < 2 ^ 32) :
    ∃ k, decodeV s (encV s v) 0 = some (v, k) :=
  (decOKAux (schemaDepth s) s v le_rfl hwt hg hnn).2 hv hlen

theorem decOK_exact {s : Schema} {v : Value}
    (hwt : WT s v = true) (hg : Good s = true) (hnn : NoNull v = true)
    (hlen : (encV s v).length < 2 ^ 32) :
    ∃ k, decodeV s (encV s v) 0 = some (v, k) := by
  cases hv : isVariableSizeType s with
  | true => exact decOK_var hv hwt hg hnn hlen
  | false =>
      refine ⟨(encV s v).length, ?_⟩
      have h := decOK_fixed hv hwt hg hnn [] []
      simpa using h

theorem marshalTop_plain {s : Schema} {v : Value}
    (hwt : WT s v = true) (hnn : NoNull v = true) :
    sszMarshalTop s (.plain v) = .ok (sszMarshal s v) := by
  have hden : denull s v = v := denull_id hnn
  have hms : sszMarshal s v = encV s v := by rw [sszMarshal, hden]
  have hdet : determineSize s v = (encV s v).length := (encLen_eq_detSize hwt hnn).symm
  have hbuf : writeBuf (List.replicate (determineSize s v) 0) 0 (encV s v)
      = some (encV s v) := by
    simp [writeBuf, List.length_replicate, hdet]
  simp [sszMarshalTop, topDetermineSize, hms, hbuf]

theorem unmarshalTop_enc {s : Schema} {v : Value}
    (hwt : WT s v = true) (hg : Good s = true) (hnn : NoNull v = true)
    (hne : ¬ (encV s v).length = 0) (hlen : (encV s v).length < 2 ^ 32) :
    sszUnmarshalTop s (sszMarshal s v) = .ok v := by
  have hden : denull s v = v := denull_id hnn
  have hms : sszMarshal s v = encV s v := by rw [sszMarshal, hden]
  have hdet : (encV s v).length = determineSize s v := encLen_eq_detSize hwt hnn
  rcases decOK_exact hwt hg hnn hlen with ⟨k, hk⟩
  rw [hms, sszUnmarshalTop, if_neg hne]
  simp only [hk, if_pos hdet]

theorem decodeSeq_uint (w : Nat) (input : List Nat) :
    ∀ (k idx : Nat), idx + k * w ≤ input.length →
      ∃ vs, decodeSeq (decodeV (.uint w)) k input idx = some (vs, idx + k * w)
        ∧ vs.length = k := by
  intro k
  induction k with
  | zero =>
      intro idx h
      exact ⟨[], by simp [decodeSeq], rfl⟩
  | succ k ih =>
      intro idx h
      have hexp : (k + 1) * w = k * w + w := by ring
      rw [hexp] at h
      have hr : readLE input idx w = some (fromLE (sliceGo input idx (idx + w))) := by
        rw [readLE, if_pos (by omega)]
      have hdec : decodeV (.uint w) input idx
          = some (.uint (fromLE (sliceGo input idx (idx + w))), idx + w) := by
        simp only [decodeV, hr]
      rcases ih (idx + w) (by omega) with ⟨vs, hs, hl⟩
      refine ⟨.uint (fromLE (sliceGo input idx (idx + w))) :: vs, ?_, by simp [hl]⟩
      simp only [decodeSeq, hdec, hs]
      have hfin : idx + w + k * w = idx + (k + 1) * w := by ring
      rw [hfin]

theorem goUint64LE_short (input : List Nat) (i : Nat) :
    goUint64LE (sliceGo input i (i + BytesPerLengthOffset)) = none := by
  have hlen : (sliceGo input i (i + BytesPerLengthOffset)).length ≤ 4 := by
    simp only [sliceGo, List.length_drop, List.length_take, BytesPerLengthOffset]
    omega
  rw [goUint64LE, if_neg (by omega)]

theorem denullFields_append :
    ∀ (fsA : List Schema) (vsA : List Value), vsA.length = fsA.length →
      ∀ (f : Schema) (fsB : List Schema) (x : Value) (vsB : List Value),
      denullFields (fsA ++ f :: fsB) (vsA ++ x :: vsB)
        = denullFields fsA vsA ++ denull f x :: denullFields fsB vsB := by
  intro fsA
  induction fsA with
  | nil =>
      intro vsA h f fsB x vsB
      have hA : vsA = [] := List.length_eq_zero.mp (by simpa using h)
      subst hA
      simp [denullFields]
  | cons g gs ih =>
      intro vsA h f fsB x vsB
      cases vsA with
      | nil => simp at h
      | cons v ws =>
          simp only [List.length_cons] at h
          simp only [List.cons_append, denullFields, List.append_eq]
          rw [ih ws (by omega) f fsB x vsB]

theorem denull_null (f : Schema) : denull f .null = zeroValue f := by
  cases f <;> rfl

theorem map_mod_id {l : List Nat} (hl : ∀ c ∈ l, c < 256) :
    l.map (fun c => c % 256) = l := by
  induction l with
  | nil => rfl
  | cons c cs ih =>
      rw [List.map_cons, Nat.mod_eq_of_lt (hl c (List.mem_cons_self _ _)),
        ih (fun d hd => hl d (List.mem_cons_of_mem _ hd))]

/-! ## The claims -/

/-- Claim C1, corrected: the round-trip `Unmarshal (Marshal v) = v` holds
for well-typed, null-free values of decodable schemas whose encoding is
non-empty and shorter than 2^32 bytes.  As stated the claim is false: an
empty encoding (e.g. of an empty container) is rejected by `Unmarshal`
with the empty-input error — see the counterexample. -/
theorem claim_C1 (s : Schema) (v : Value)
    (hwt : WT s v = true) (hg : Good s = true) (hnn : NoNull v = true)
    (hne : sszMarshal s v ≠ []) (hlen : (sszMarshal s v).length < 2 ^ 32) :
    sszMarshalTop s (.plain v) = .ok (sszMarshal s v)
    ∧ sszUnmarshalTop s (sszMarshal s v) = .ok v := by
  have hms : sszMarshal s v = encV s v := by rw [sszMarshal, denull_id hnn]
  refine ⟨marshalTop_plain hwt hnn, unmarshalTop_enc hwt hg hnn ?_ ?_⟩
  · rw [← hms]
    exact fun h => hne (List.length_eq_zero.mp h)
  · rw [← hms]
    exact hlen

/-- Witness for C1 at the one-field container `{uint8}` holding 5. -/
theorem claim_C1_witness :
    WT (.container [.uint 1]) (.container [.uint 5]) = true
    ∧ sszMarshal (.container [.uint 1]) (.container [.uint 5]) ≠ []
    ∧ (sszMarshalTop (.container [.uint 1]) (.plain (.container [.uint 5]))
        = .ok (sszMarshal (.container [.uint 1]) (.container [.uint 5]))
      ∧ sszUnmarshalTop (.container [.uint 1])
          (sszMarshal (.container [.uint 1]) (.container [.uint 5]))
        = .ok (.container [.uint 5])) :=
  ⟨by decide, by decide,
    claim_C1 (.container [.uint 1]) (.container [.uint 5])
      (by decide) (by decide) (by decide) (by decide) (by decide)⟩

/-- Counterexample to C1 as stated: the empty container is a supported
schema, `Marshal` of its (only) value produces zero bytes, and `Unmarshal`
of those bytes fails with the empty-input error instead of returning the
value. -/
theorem claim_C1_counterexample :
    sszMarshalTop (.container []) (.plain (.container [])) = .ok ([] : List Nat)
    ∧ sszUnmarshalTop (.container []) [] = .error .emptyInput := ⟨rfl, rfl⟩

/-- Claim C2, corrected: `basicSliceSSZ.Unmarshal` recovers the element
count as the floor of `len(input) / elementSize` and succeeds, silently
ignoring any remainder bytes; no `Misaligned` error exists in the code.
Stated for lists of `uintN` elements (width `w`), the shape the divisor
path actually runs on. -/
theorem claim_C2 (w : Nat) (input : List Nat) (hw : 0 < w)
    (hwlen : w ≤ input.length) :
    ∃ vs, decodeV (.list (.uint w)) input 0
        = some (.list vs, w * (input.length / w))
      ∧ vs.length = input.length / w := by
  have hq : 1 ≤ input.length / w := (Nat.one_le_div_iff hw).mpr hwlen
  have hne : ¬ input.length = 0 := by omega
  have hr : readLE input 0 w = some (fromLE (sliceGo input 0 (0 + w))) := by
    rw [readLE, if_pos (by omega)]
  have hdec0 : decodeV (.uint w) input 0
      = some (.uint (fromLE (sliceGo input 0 (0 + w))), 0 + w) := by
    simp only [decodeV, hr]
  have hstep : (input.length / w - 1) * w + w = input.length / w * w := by
    have h2 : input.length / w - 1 + 1 = input.length / w := Nat.succ_pred_eq_of_pos hq
    calc (input.length / w - 1) * w + w = (input.length / w - 1 + 1) * w := by ring
      _ = input.length / w * w := by rw [h2]
  have hmul : input.length / w * w ≤ input.length := Nat.div_mul_le_self _ _
  rcases decodeSeq_uint w input (input.length / w - 1) w (by omega) with ⟨vs, hs, hl⟩
  refine ⟨.uint (fromLE (sliceGo input 0 (0 + w))) :: vs, ?_, ?_⟩
  · have hvf : ¬ (isVariableSizeType (.uint w) = true) := by simp [isVariableSizeType]
    have hwne : ¬ w = 0 := by omega
    rw [decodeV, if_neg hvf]
    simp only [basicSliceUnmarshal, if_neg hne, hdec0, Nat.zero_add, Nat.sub_zero,
      if_neg hwne, hs]
    have hfin : w + (input.length / w - 1) * w = w * (input.length / w) := by
      rw [Nat.mul_comm w (input.length / w), ← hstep]
      ring
    rw [hfin]
  · simp only [List.length_cons, hl]
    omega

/-- Witness for C2 on the misaligned 3-byte input for `[]uint16`. -/
theorem claim_C2_witness :
    0 < 2 ∧ 2 ≤ ([1, 0, 2] : List Nat).length
    ∧ ∃ vs, decodeV (.list (.uint 2)) [1, 0, 2] 0
        = some (.list vs, 2 * (([1, 0, 2] : List Nat).length / 2))
      ∧ vs.length = ([1, 0, 2] : List Nat).length / 2 :=
  ⟨by decide, by decide, claim_C2 2 [1, 0, 2] (by decide) (by decide)⟩

/-- Counterexample to C2 as stated: decoding three bytes as `[]uint16` is
a misaligned input (3 mod 2 ≠ 0), yet the decoder succeeds with one
element, silently dropping the trailing byte — no `Misaligned` error. -/
theorem claim_C2_counterexample :
    ([1, 0, 2] : List Nat).length % 2 ≠ 0
    ∧ decodeV (.list (.uint 2)) [1, 0, 2] 0 = some (.list [.uint 1], 2) :=
  ⟨by decide, rfl⟩

/-- Claim C3, code bug: on a non-monotonic offset pair (first offset 8,
next offset 6 read from the table) `compositeSliceSSZ.Unmarshal` hits the
`nextOffset < currentOffset` branch, silently breaks out of the loop and
reports success with a truncated (single zero-element) result, instead of
failing with an `OffsetsNonMonotonic` error. -/
theorem claim_C3 :
    readLE [8, 0, 0, 0, 6, 0, 0, 0, 9, 9] 0 4 = some 8
    ∧ readLE [8, 0, 0, 0, 6, 0, 0, 0, 9, 9] 4 4 = some 6
    ∧ decodeV (.list .byteList) [8, 0, 0, 0, 6, 0, 0, 0, 9, 9] 0
        = some (.list [.bytes []], 0) := ⟨rfl, rfl, rfl⟩

/-- Claim C4, code bug: the offsets pass of `makeStructDecoder`
(decode.go) slices the 4-byte window `input[i : i+4]` and then reads it
with `binary.LittleEndian.Uint64`, an 8-byte read that panics on every
4-byte buffer — so that decoder fails on any struct with a variable
field.  The types-package `structSSZ.Unmarshal` performs the intended
4-byte `uint32` read correctly. -/
theorem claim_C4 :
    (∀ (input : List Nat) (start : Nat) (rest : List Nat) (i : Nat),
      oldStructCollectOffsets input start (0 :: rest) i = none)
    ∧ collectOffsets [4, 0, 0, 0, 7] 0 [none] 0 = [4] := by
  refine ⟨?_, rfl⟩
  intro input start rest i
  rw [oldStructCollectOffsets, if_neg (by omega)]
  by_cases hb : i + BytesPerLengthOffset ≤ input.length
  · rw [if_pos hb, goUint64LE_short]
  · rw [if_neg hb]

set_option maxHeartbeats 2000000 in
/-- Claim C5, code bug: `Unmarshal` checks
`types.DetermineSize(decoded) == len(input)` instead of the number of
bytes actually consumed.  On this crafted `[][]byte` input the offset
table points past its own third entry, the final two bytes are never
read, and `DetermineSize` of the decoded value still equals 14 — so
`Unmarshal` succeeds for every choice of the two trailing bytes instead
of failing with a trailing-bytes error. -/
theorem claim_C5 (x y : Nat) :
    sszUnmarshalTop (.list .byteList)
      [6, 0, 0, 0, 9, 0, 0, 0, 12, 0, 0, 0, x, y]
      = .ok (.list [.bytes [0, 0, 12], .bytes [0, 0, 0]]) := rfl

/-- Claim C6, corrected: `determineFieldCapacity` parses the `ssz-max`
tag but its result is never used by any decoder; decoding succeeds for
any element count, even one exceeding the declared limit. -/
theorem claim_C6 (e : Schema) (vs : List Value) (limit : Nat)
    (hwt : WT (.list e) (.list vs) = true) (hg : Good (.list e) = true)
    (hnn : NoNull (.list vs) = true)
    (hlen : (encV (.list e) (.list vs)).length < 2 ^ 32)
    (hexceed : limit < vs.length) :
    determineFieldCapacity (some (some limit)) = limit
    ∧ ∃ k, decodeV (.list e) (encV (.list e) (.list vs)) 0 = some (.list vs, k) :=
  ⟨rfl, decOK_var rfl hwt hg hnn hlen⟩

/-- Witness for C6: a 2-element `[]uint8` list decoded against limit 1. -/
theorem claim_C6_witness :
    WT (.list (.uint 1)) (.list [.uint 7, .uint 8]) = true
    ∧ 1 < ([.uint 7, .uint 8] : List Value).length
    ∧ (determineFieldCapacity (some (some 1)) = 1
      ∧ ∃ k, decodeV (.list (.uint 1))
          (encV (.list (.uint 1)) (.list [.uint 7, .uint 8])) 0
          = some (.list [.uint 7, .uint 8], k)) :=
  ⟨by decide, by decide,
    claim_C6 (.uint 1) [.uint 7, .uint 8] 1 (by decide) (by decide) (by decide)
      (by decide) (by decide)⟩

/-- Counterexample to C6 as stated: with a parsed limit of 1, decoding an
input implying two elements succeeds instead of failing with
`LimitExceeded`. -/
theorem claim_C6_counterexample :
    determineFieldCapacity (some (some 1)) = 1
    ∧ decodeV (.list (.uint 1)) [7, 8] 0 = some (.list [.uint 7, .uint 8], 2) :=
  ⟨rfl, rfl⟩

/-- Claim C7, confirmed: marshaling a container with a null sub-field
produces the same bytes as marshaling it with that sub-field replaced by
the freshly zero-constructed value of the field's schema. -/
theorem claim_C7 (fsA fsB : List Schema) (f : Schema) (vsA vsB : List Value)
    (hlen : vsA.length = fsA.length) :
    sszMarshal (.container (fsA ++ f :: fsB)) (.container (vsA ++ .null :: vsB))
      = sszMarshal (.container (fsA ++ f :: fsB))
          (.container (vsA ++ zeroValue f :: vsB)) := by
  have hdc : ∀ vs, denull (.container (fsA ++ f :: fsB)) (.container vs)
      = .container (denullFields (fsA ++ f :: fsB) vs) := fun vs => rfl
  rw [sszMarshal, sszMarshal, hdc, hdc,
    denullFields_append fsA vsA hlen f fsB .null vsB,
    denullFields_append fsA vsA hlen f fsB (zeroValue f) vsB,
    denull_null, denull_zeroValue]

/-- Witness for C7 at a one-field container whose field is a struct
pointer. -/
theorem claim_C7_witness :
    ([] : List Value).length = ([] : List Schema).length
    ∧ sszMarshal (.container ([] ++ .container [.uint 1] :: []))
        (.container ([] ++ .null :: []))
      = sszMarshal (.container ([] ++ .container [.uint 1] :: []))
        (.container ([] ++ zeroValue (.container [.uint 1]) :: [])) :=
  ⟨rfl, claim_C7 [] [] (.container [.uint 1]) [] [] rfl⟩

/-- Claim C8, confirmed: a variable-element list of L elements is encoded
as an offset table of exactly L×4 bytes followed by the element bodies;
the first offset read back equals 4L, and every adjacent pair of offsets
in the table is non-decreasing (given the total fits in a uint32). -/
theorem claim_C8 (e : Schema) (vs : List Value)
    (he : isVariableSizeType e = true)
    (hlen : 4 * vs.length + (encElems e vs).flatten.length < 2 ^ 32) :
    encV (.list e) (.list vs)
      = offsetTable (4 * vs.length) (encElems e vs) ++ (encElems e vs).flatten
    ∧ (offsetTable (4 * vs.length) (encElems e vs)).length = 4 * vs.length
    ∧ (1 ≤ vs.length →
        readLE (encV (.list e) (.list vs)) 0 4 = some (4 * vs.length))
    ∧ (∀ j, j + 2 ≤ vs.length →
        ∃ a b, readLE (encV (.list e) (.list vs)) (4 * j) 4 = some a
          ∧ readLE (encV (.list e) (.list vs)) (4 * (j + 1)) 4 = some b
          ∧ a ≤ b) := by
  have henc : encV (.list e) (.list vs)
      = offsetTable (4 * vs.length) (encElems e vs) ++ (encElems e vs).flatten := by
    simp [encV, he]
  have htlen : (offsetTable (4 * vs.length) (encElems e vs)).length
      = 4 * vs.length := by
    rw [offsetTable_length, encElems_length]
  refine ⟨henc, htlen, ?_, ?_⟩
  · intro hpos
    have h := readLE_table (4 * vs.length) (encElems e vs)
      ((encElems e vs).flatten) 0 (by rw [encElems_length]; omega)
    simp only [Nat.mul_zero, List.take_zero, List.flatten_nil, List.length_nil,
      Nat.add_zero] at h
    rw [henc, h, Nat.mod_eq_of_lt (show 4 * vs.length < 2 ^ 32 by omega)]
  · intro j hj
    have ha := readLE_table (4 * vs.length) (encElems e vs)
      ((encElems e vs).flatten) j (by rw [encElems_length]; omega)
    have hb := readLE_table (4 * vs.length) (encElems e vs)
      ((encElems e vs).flatten) (j + 1) (by rw [encElems_length]; omega)
    have hta : ((encElems e vs).take j).flatten.length
        ≤ (encElems e vs).flatten.length := by
      conv_rhs => rw [← List.take_append_drop j (encElems e vs)]
      rw [List.flatten_append, List.length_append]
      omega
    have htb : ((encElems e vs).take (j + 1)).flatten.length
        ≤ (encElems e vs).flatten.length := by
      conv_rhs => rw [← List.take_append_drop (j + 1) (encElems e vs)]
      rw [List.flatten_append, List.length_append]
      omega
    have hmono : ((encElems e vs).take j).flatten.length
        ≤ ((encElems e vs).take (j + 1)).flatten.length := by
      rw [List.take_succ, List.flatten_append, List.length_append]
      omega
    refine ⟨_, _, by rw [henc]; exact ha, by rw [henc]; exact hb, ?_⟩
    rw [Nat.mod_eq_of_lt (by omega), Nat.mod_eq_of_lt (by omega)]
    omega

/-- Witness for C8 on `[][]byte` with elements `[7]` and `[]`. -/
theorem claim_C8_witness :
    isVariableSizeType .byteList = true
    ∧ readLE (encV (.list .byteList) (.list [.bytes [7], .bytes []])) 0 4
        = some (4 * ([.bytes [7], .bytes []] : List Value).length) :=
  ⟨by decide,
    (claim_C8 .byteList [.bytes [7], .bytes []] (by decide) (by decide)).2.2.1
      (by decide)⟩

/-- Claim C9, confirmed: `Marshal` of a typed nil pointer returns the
zero-filled buffer of the schema's computed size untouched (the size
equals the length of the zero value's encoding). -/
theorem claim_C9 (s : Schema) :
    sszMarshalTop s (.ptr none)
      = .ok (List.replicate (encV s (zeroValue s)).length 0) := by
  simp only [sszMarshalTop, topDetermineSize, encLen_zero]

/-- Claim C10, confirmed: for a string of byte-sized characters,
`stringSSZ.Marshal` writes exactly the characters (low 8 bits each) into
the pre-sized buffer and `stringSSZ.Unmarshal` reads them all back. -/
theorem claim_C10 (s : List Nat) (h : ∀ c ∈ s, c < 256) :
    stringMarshal s (List.replicate s.length 0) 0 = some (s, s.length)
    ∧ stringUnmarshal s 0 = some (s, s.length) := by
  constructor
  · rw [stringMarshal, if_pos (by simp)]
    rw [map_mod_id h]
    simp
  · rw [stringUnmarshal, if_pos (by omega)]
    simp

/-- Witness for C10 on the two-character string "hi". -/
theorem claim_C10_witness :
    (∀ c ∈ ([104, 105] : List Nat), c < 256)
    ∧ (stringMarshal [104, 105] (List.replicate ([104, 105] : List Nat).length 0) 0
        = some ([104, 105], ([104, 105] : List Nat).length)
      ∧ stringUnmarshal [104, 105] 0
        = some ([104, 105], ([104, 105] : List Nat).length)) :=
  ⟨by decide, claim_C10 [104, 105] (by decide)⟩
